import Mathlib

/-!
Verification development for the `minijson` JSON parser (`minijson.hpp`,
`minijson.cpp`).

Embedding conventions:

* C++ `std::string_view source` plus a mutable `size_t cursor` are embedded as
  a pair `(rem : List Char, pos : Nat)`: `rem` is the still-unread suffix
  `source.substr(cursor)` and `pos` is the absolute cursor offset (used in
  reported errors).  `source[cursor]` is the head of `rem`; `cursor++` drops
  the head and increments `pos`.
* Doubles are embedded as `JNum`: exact rationals for finite values plus the
  two infinities and NaN, which `std::from_chars` can produce from the tokens
  `inf` / `infinity` / `nan`.  Rationals model the decimal-literal values
  exactly (no binary rounding); every concrete input used in the theorems
  below has the same behaviour under binary doubles.
* The mutually recursive grammar rules (`parseValue`, the `parseArray` loop,
  the `parseObject` loop) are embedded with an explicit fuel argument that is
  decremented at every recursive call; `none` means "out of fuel".  The
  top-level `parse` runs with fuel `2 * length + 1`, which is proven
  sufficient (`parseValueF_fuel_sufficient`).
* `parseString` line 24 of `minijson.cpp` reads `str[cursor]` — the *output*
  string being built — instead of `source[cursor]`.  Since `cursor` always
  exceeds `str`'s length there, this is an out-of-range read (undefined
  behaviour in C++).  The read is embedded as `str.getD cursor (oob cursor)`
  where `oob : Nat → Char` is an arbitrary model of what the out-of-range
  read yields; theorems quantify over `oob` or instantiate it with `zeroOob`
  (reading `'\x00'`, the typical outcome on a freshly reserved buffer).
-/

namespace Minijson

/-- Model of the C++ `double` values producible by this program: exact
rationals for finite values, plus infinities and NaN. -/
inductive JNum where
  | fin (q : ℚ)
  | inf (neg : Bool)
  | nan
deriving DecidableEq, Repr

/-- Model of `minijson::JsonValue`: a closed sum over the seven variants.
`Array` is a `List` of values, `Object` is a key-sorted association list
(the embedding of `std::map<std::string, JsonValue, std::less<>>`);
sortedness is maintained by `objEmplace` below. -/
inductive JsonValue where
  | invalid
  | null
  | bool (b : Bool)
  | num (n : JNum)
  | str (s : List Char)
  | arr (elems : List JsonValue)
  | obj (members : List (List Char × JsonValue))

/-- Model of `minijson::Error`: cursor offset plus message. -/
structure Error where
  cursor : Nat
  message : String
deriving DecidableEq, Repr

/-- Lexicographic `<` on strings, the comparator `std::less<>` of the
`Object` map. -/
def strLt : List Char → List Char → Bool
  | _, [] => false
  | [], _ :: _ => true
  | a :: as, b :: bs => if a < b then true else if b < a then false else strLt as bs

/-- Model of `Object::emplace` (`std::map` insert-if-absent, first insertion
wins) on the sorted association list. -/
def objEmplace : List (List Char × JsonValue) → List Char → JsonValue →
    List (List Char × JsonValue)
  | [], k, v => [(k, v)]
  | (k0, v0) :: rest, k, v =>
    if strLt k k0 then (k, v) :: (k0, v0) :: rest
    else if strLt k0 k then (k0, v0) :: objEmplace rest k v
    else (k0, v0) :: rest

/-- Model of `Object::find` (the unique entry with an equal key, if any). -/
def findMember : List (List Char × JsonValue) → List Char → Option JsonValue
  | [], _ => none
  | (k0, v0) :: rest, k => if k0 = k then some v0 else findMember rest k

/-- Model of `JsonValue::isValid` (`!is<Invalid>()`). -/
def isValid : JsonValue → Bool
  | .invalid => false
  | _ => true

/-- Model of `JsonValue::size` (`minijson.cpp` lines 246-257). -/
def size : JsonValue → Nat
  | .invalid => 0
  | .null => 0
  | .arr a => a.length
  | .obj o => o.length
  | _ => 1

/-- Model of `JsonValue::operator[](std::string_view key)` (lines 259-271):
on an object, `find` and return the hit or the `Invalid` sentinel
(`getNonExistent`); on every other variant, the sentinel. -/
def getKey (v : JsonValue) (key : List Char) : JsonValue :=
  match v with
  | .obj o => (findMember o key).getD .invalid
  | _ => .invalid

/-- Model of `JsonValue::operator[](size_t index)` (lines 273-280):
`isArray() && index < size()` guards the element access, otherwise the
`Invalid` sentinel. -/
def getIdx (v : JsonValue) (index : Nat) : JsonValue :=
  match v with
  | .arr a => (a.get? index).getD .invalid
  | _ => .invalid

/-- Model of `isWhitespace` (line 58-61), verbatim including the duplicated
tab test (`'\r'` is not whitespace for this parser). -/
def isWhitespace (ch : Char) : Bool :=
  ch = ' ' || ch = '\t' || ch = '\n' || ch = '\t'

/-- Model of `skipWhitespace` (lines 63-68). -/
def skipWhitespace : List Char → Nat → List Char × Nat
  | [], pos => ([], pos)
  | c :: rest, pos =>
    if isWhitespace c then skipWhitespace rest (pos + 1) else (c :: rest, pos)

/-- Model of `skipSeparator` (lines 80-89). -/
def skipSeparator (rem : List Char) (pos : Nat) : Bool × List Char × Nat :=
  let (r1, p1) := skipWhitespace rem pos
  match r1 with
  | ',' :: rest =>
    let (r2, p2) := skipWhitespace rest (p1 + 1)
    (true, r2, p2)
  | _ => (false, r1, p1)

/-- The escape table of `parseString` (lines 30-39), the eight recognized
escapes each mapping to a one-character string. -/
def escapes : List (Char × List Char) :=
  [('"', ['"']), ('\\', ['\\']), ('/', ['/']), ('b', ['\x08']),
   ('f', ['\x0c']), ('n', ['\n']), ('r', ['\r']), ('t', ['\t'])]

/-- `escapes.find(c)` of the source. -/
def findEscape (c : Char) : Option (List Char) :=
  escapes.lookup c

/-- Loop body of `parseString` (lines 18-55).  `str` is the accumulated
output.  Note the faithful embedding of the source's line 24,
`const auto c = str[cursor];`: the escape selector is read from the
*output* buffer `str` at the source index, which is always out of range
there; the unknown result of that read is modelled by `oob`. -/
def parseStringLoop (oob : Nat → Char) : List Char → Nat → List Char →
    Except Error (List Char × List Char × Nat)
  | [], pos, _ => .error ⟨pos, "Unterminated string"⟩
  | ch :: rest, pos, str =>
    if ch = '\\' then
      match rest with
      | [] => .error ⟨pos + 1, "Incomplete character escape"⟩
      | _ :: rest2 =>
        let c := str.getD (pos + 1) (oob (pos + 1))
        if c = 'u' then .error ⟨pos + 1, "Unicode escapes are not implemented yet"⟩
        else
          match findEscape c with
          | none => .error ⟨pos + 1, "Invalid character escape"⟩
          | some e => parseStringLoop oob rest2 (pos + 1 + 1) (str ++ e)
    else if ch = '"' then .ok (str, rest, pos + 1)
    else parseStringLoop oob rest (pos + 1) (str ++ [ch])

/-- Model of `parseString` (lines 11-56): the assertion that the first
character is `'"'` holds at every call site; the opening quote is consumed
and the loop runs with an empty output string. -/
def parseString (oob : Nat → Char) (rem : List Char) (pos : Nat) :
    Except Error (List Char × List Char × Nat) :=
  parseStringLoop oob rem.tail (pos + 1) []

/-- The scan set of `parseValue`'s literal/number branch (line 213),
verbatim — note that lowercase `k` is absent from the source string. -/
def valueChars : List Char :=
  "0123456789abcdefghijlmnopqrstuvwxyzABCDEFGHIJKLMNOPQRSTUVWXYZ.+-".toList

/-- Digit value accumulation for the `std::from_chars` model. -/
def digitsVal (ds : List Char) : Nat :=
  ds.foldl (fun a c => 10 * a + (c.toNat - 48)) 0

/-- Exponent application on exact rationals. -/
def applyExp (base : ℚ) (e : Int) : ℚ :=
  if 0 ≤ e then base * 10 ^ e.toNat else base / 10 ^ (-e).toNat

/-- Modelled from the documented behaviour of `std::from_chars` for `double`
with `chars_format::general`, as used by `parseNumber` (lines 70-78): an
optional minus sign (no plus), then either a case-insensitive `inf` /
`infinity` / `nan`, or a non-empty digit sequence optionally containing one
decimal point, optionally followed by an exponent (`e`/`E`, optional sign,
non-empty digits).  The source requires the whole token to be consumed
(`ptr == end`), so the model returns `some` only when the entire list
matches.  The `nan(n-char-seq)` form cannot arise here because `'('` is
never part of the scanned token. -/
def fromCharsNum (s : List Char) : Option JNum :=
  let neg : Bool := s.head? = some '-'
  let rest := if neg then s.tail else s
  let lower := rest.map Char.toLower
  if lower = "inf".toList ∨ lower = "infinity".toList then some (.inf neg)
  else if lower = "nan".toList then some .nan
  else
    let d1 := rest.takeWhile Char.isDigit
    let afterD1 := rest.drop d1.length
    let hasPoint : Bool := afterD1.head? = some '.'
    let d2 := if hasPoint then afterD1.tail.takeWhile Char.isDigit else []
    let afterMant := if hasPoint then afterD1.tail.drop d2.length else afterD1
    if d1.length + d2.length = 0 then none
    else
      let mant : ℚ := (digitsVal (d1 ++ d2) : ℚ) / 10 ^ d2.length
      let signed : ℚ := if neg then -mant else mant
      match afterMant with
      | [] => some (.fin signed)
      | e :: r3 =>
        if e = 'e' ∨ e = 'E' then
          let eneg : Bool := r3.head? = some '-'
          let r4 := if r3.head? = some '-' ∨ r3.head? = some '+' then r3.tail else r3
          if r4 ≠ [] ∧ r4.all Char.isDigit then
            let ex : Int := if eneg then -(digitsVal r4 : Int) else (digitsVal r4 : Int)
            some (.fin (applyExp signed ex))
          else none
        else none

/-- Model of `parseNumber` (lines 70-78): `std::from_chars` over the whole
token, `nullopt` unless it succeeds and consumes everything. -/
def parseNumber (s : List Char) : Option JNum :=
  if s = [] then none else fromCharsNum s

mutual

/-- Model of `parseValue` (lines 183-242) with explicit fuel.  Dispatches on
the first non-whitespace character; the literal/number branch captures the
maximal run of `valueChars` (the embedding of `find_first_not_of`). -/
def parseValueF (oob : Nat → Char) : Nat → List Char → Nat →
    Option (Except Error (JsonValue × List Char × Nat))
  | 0, _, _ => none
  | fuel + 1, rem, pos =>
    let (r1, p1) := skipWhitespace rem pos
    match r1 with
    | [] => some (.error ⟨p1, "Expected value"⟩)
    | c :: rest =>
      if c = '{' then parseObjectLoopF oob fuel [] rest (p1 + 1)
      else if c = '[' then parseArrayLoopF oob fuel [] rest (p1 + 1)
      else if c = '"' then
        match parseString oob r1 p1 with
        | .error e => some (.error e)
        | .ok (s, r2, p2) => some (.ok (.str s, r2, p2))
      else
        let value := r1.takeWhile (fun ch => valueChars.contains ch)
        if value = [] then some (.error ⟨p1, "Value must not be empty"⟩)
        else if value = "null".toList then
          some (.ok (.null, r1.drop value.length, p1 + value.length))
        else if value = "true".toList then
          some (.ok (.bool true, r1.drop value.length, p1 + value.length))
        else if value = "false".toList then
          some (.ok (.bool false, r1.drop value.length, p1 + value.length))
        else
          match parseNumber value with
          | none => some (.error ⟨p1, "Invalid number"⟩)
          | some n => some (.ok (.num n, r1.drop value.length, p1 + value.length))

/-- Model of the `parseArray` loop (lines 93-125) with explicit fuel.  The
`while (cursor < source.size())` guard corresponds to the match on `rem`:
an exhausted buffer at the loop head falls through to the success return
`JsonValue(values)`. -/
def parseArrayLoopF (oob : Nat → Char) : Nat → List JsonValue → List Char → Nat →
    Option (Except Error (JsonValue × List Char × Nat))
  | 0, _, _, _ => none
  | fuel + 1, values, rem, pos =>
    match rem with
    | [] => some (.ok (.arr values, [], pos))
    | _ :: _ =>
      let (r1, p1) := skipWhitespace rem pos
      match r1 with
      | [] => some (.error ⟨p1, "Unterminated array"⟩)
      | c :: rest =>
        if c = ']' then some (.ok (.arr values, rest, p1 + 1))
        else
          match parseValueF oob fuel r1 p1 with
          | none => none
          | some (.error e) => some (.error e)
          | some (.ok (v, r2, p2)) =>
            let values2 := values ++ [v]
            let (sep, r3, p3) := skipSeparator r2 p2
            match r3 with
            | ']' :: rest3 => some (.ok (.arr values2, rest3, p3 + 1))
            | _ =>
              if sep then parseArrayLoopF oob fuel values2 r3 p3
              else some (.error ⟨p3, "Expected separator"⟩)

/-- Model of the `parseObject` loop (lines 127-181) with explicit fuel; same
fall-through-to-success structure as the array loop. -/
def parseObjectLoopF (oob : Nat → Char) : Nat → List (List Char × JsonValue) →
    List Char → Nat → Option (Except Error (JsonValue × List Char × Nat))
  | 0, _, _, _ => none
  | fuel + 1, obj, rem, pos =>
    match rem with
    | [] => some (.ok (.obj obj, [], pos))
    | _ :: _ =>
      let (r1, p1) := skipWhitespace rem pos
      match r1 with
      | [] => some (.error ⟨p1, "Unterminated object"⟩)
      | c :: _ =>
        if c = '}' then some (.ok (.obj obj, r1.tail, p1 + 1))
        else if c ≠ '"' then some (.error ⟨p1, "Expected key"⟩)
        else
          match parseString oob r1 p1 with
          | .error e => some (.error e)
          | .ok (key, r2, p2) =>
            let (r3, p3) := skipWhitespace r2 p2
            match r3 with
            | ':' :: rest4 =>
              let (r5, p5) := skipWhitespace rest4 (p3 + 1)
              match r5 with
              | [] => some (.error ⟨p5, "Expected value"⟩)
              | _ :: _ =>
                match parseValueF oob fuel r5 p5 with
                | none => none
                | some (.error e) => some (.error e)
                | some (.ok (v, r6, p6)) =>
                  let obj2 := objEmplace obj key v
                  let (sep, r7, p7) := skipSeparator r6 p6
                  match r7 with
                  | '}' :: rest7 => some (.ok (.obj obj2, rest7, p7 + 1))
                  | _ =>
                    if sep then parseObjectLoopF oob fuel obj2 r7 p7
                    else some (.error ⟨p7, "Expected separator"⟩)
            | _ => some (.error ⟨p3, "Expected colon"⟩)

end

/-- Model of `parse` (lines 365-369): run `parseValue` from cursor 0.  The
fuel `2 * length + 1` is sufficient (`parseValueF_fuel_sufficient`), so the
`none` fallback is unreachable. -/
def parse (oob : Nat → Char) (source : List Char) : Except Error JsonValue :=
  match parseValueF oob (2 * source.length + 1) source 0 with
  | some (.ok (v, _, _)) => .ok v
  | some (.error e) => .error e
  | none => .error ⟨0, "fuel exhausted"⟩

/-- Canonical model of the out-of-range read in `parseString`: the typical
real-world outcome of reading just past a freshly reserved `std::string`
buffer is a zero byte. -/
def zeroOob : Nat → Char := fun _ => '\x00'

/-! ### Diagnostics: `getContext` (lines 349-363)

The backward scan `while (lineStart > 0 && str[lineStart] != '\n')` reads
`str[lineStart]` guarded only by `lineStart > 0`, never by
`lineStart < str.size()`, so every read is embedded through `List.get?` and
any out-of-range access surfaces as `none`. -/

/-- The first loop of `getContext`: scan backward from `cursor` for a
newline or the buffer start.  `none` records an out-of-range read. -/
def findLineStart (s : List Char) : Nat → Option Nat
  | 0 => some 0
  | l + 1 =>
    match s.get? (l + 1) with
    | none => none
    | some ch => if ch = '\n' then some (l + 1) else findLineStart s l

/-- The second loop of `getContext`: scan forward for a newline or the
buffer end.  Here the read is guarded by `lineEnd < str.size()` in the
source, so `get? = none` is the ordinary loop exit, not an invalid access;
the explicit bound argument only drives the recursion and `s.length` steps
always suffice. -/
def findLineEnd (s : List Char) : Nat → Nat → Nat
  | 0, le => le
  | k + 1, le =>
    match s.get? le with
    | some ch => if ch = '\n' then le else findLineEnd s k (le + 1)
    | none => le

/-- Model of `getContext`, instrumented for memory safety: `some` is the
rendered two-line snippet, `none` means the function performed an
out-of-range buffer access. -/
def getContextChk (s : List Char) (cursor : Nat) : Option (List Char) :=
  match findLineStart s cursor with
  | none => none
  | some ls0 =>
    let adjusted : Option Nat :=
      if ls0 < cursor then
        match s.get? ls0 with
        | none => none
        | some ch => some (if ch = '\n' then ls0 + 1 else ls0)
      else some ls0
    match adjusted with
    | none => none
    | some ls =>
      let le := findLineEnd s s.length ls
      some ((s.drop ls).take (le - ls) ++
        '\n' :: (List.replicate (cursor - ls) ' ' ++ ['^']))

/-! ### Serialization: `JsonValue::dump` (lines 282-341) -/

/-- `indentStr`: the indent unit repeated `indentLevel` times. -/
def repeatList (l : List Char) : Nat → List Char
  | 0 => []
  | n + 1 => repeatList l n ++ l

/-- Decimal digit to character. -/
def digitChar (d : Nat) : Char := Char.ofNat (48 + d)

/-- Decimal rendering of a natural number, most significant digit first;
the explicit bound argument drives the recursion and `n + 1` steps always
suffice. -/
def natDigitsF : Nat → Nat → List Char
  | 0, _ => []
  | b + 1, n => if n < 10 then [digitChar n] else natDigitsF b (n / 10) ++ [digitChar (n % 10)]

/-- Decimal rendering of a natural number. -/
def natDigits (n : Nat) : List Char := natDigitsF (n + 1) n

/-- The fractional part of the `%f` rendering, zero-padded to six digits. -/
def pad6 (f : Nat) : List Char :=
  List.replicate (6 - (natDigits f).length) '0' ++ natDigits f

/-- Fixed-point rendering of a non-negative rational with six decimals,
rounding to the nearest multiple of `10 ^ (-6)`.  Modelled from
`std::to_string(double)`, which formats with `%f`; the model rounds exact
halves up while `%f` rounds the binary double to nearest, but the two
coincide whenever `q * 10^6` is an integer — in particular on every `Good`
tree — and on every concrete input used below. -/
def fixed6 (q : ℚ) : List Char :=
  let m := (⌊q * 1000000 + 1 / 2⌋).toNat
  natDigits (m / 1000000) ++ '.' :: pad6 (m % 1000000)

/-- Modelled from `std::to_string(double)` (glibc `%f`): six fixed decimal
places for finite values, `inf` / `-inf` / `nan` for the special values. -/
def numChars : JNum → List Char
  | .nan => "nan".toList
  | .inf b => if b then "-inf".toList else "inf".toList
  | .fin q => if q < 0 then '-' :: fixed6 (-q) else fixed6 q

mutual

/-- Model of `JsonValue::dump(indent, indentLevel)` (lines 282-341).  The
`Invalid` case trips `assert(isValid())` in the source (no defined
behaviour); it is embedded as the empty rendering and never reached from a
`Good` tree. -/
def dumpV (indent : List Char) (indentLevel : Nat) : JsonValue → List Char
  | .invalid => []
  | .null => "null".toList
  | .bool b => if b then "true".toList else "false".toList
  | .num n => numChars n
  | .str s => '"' :: (s ++ ['"'])
  | .arr a =>
    '[' :: '\n' :: (dumpArrElems indent indentLevel a ++
      (repeatList indent indentLevel ++ [']']))
  | .obj o =>
    '{' :: '\n' :: (dumpObjElems indent indentLevel o ++
      (repeatList indent indentLevel ++ ['}']))

/-- The element loop of the `Array` case: every element is prefixed by
`indentStr + indent` and dumped one level deeper; a comma follows every
element but the last. -/
def dumpArrElems (indent : List Char) (indentLevel : Nat) : List JsonValue → List Char
  | [] => []
  | [v] =>
    repeatList indent indentLevel ++ (indent ++ (dumpV indent (indentLevel + 1) v ++ ['\n']))
  | v :: rest =>
    repeatList indent indentLevel ++ (indent ++ (dumpV indent (indentLevel + 1) v ++
      ',' :: '\n' :: dumpArrElems indent indentLevel rest))

/-- The member loop of the `Object` case: `"key": value`, map order. -/
def dumpObjElems (indent : List Char) (indentLevel : Nat) :
    List (List Char × JsonValue) → List Char
  | [] => []
  | [(k, v)] =>
    repeatList indent indentLevel ++ (indent ++ ('"' :: (k ++ ('"' :: ':' :: ' ' ::
      (dumpV indent (indentLevel + 1) v ++ ['\n'])))))
  | (k, v) :: rest =>
    repeatList indent indentLevel ++ (indent ++ ('"' :: (k ++ ('"' :: ':' :: ' ' ::
      (dumpV indent (indentLevel + 1) v ++
        ',' :: '\n' :: dumpObjElems indent indentLevel rest)))))

end

/-! ### The round-trip precondition -/

/-- A character that survives the unescaped string serialization: not a
quote, not a backslash, not a control character. -/
def cleanChar (c : Char) : Prop := c ≠ '"' ∧ c ≠ '\\' ∧ 32 ≤ c.toNat

/-- A string free of quote, backslash and control characters. -/
def cleanString (s : List Char) : Prop := ∀ c ∈ s, cleanChar c

/-- Trees for which the (deliberately lossy) serialization round-trips:
built from `Null`, `Bool`, finite `Number`s exactly representable with six
decimal places, clean strings, arrays, and key-sorted objects with clean
keys. -/
inductive Good : JsonValue → Prop where
  | null : Good .null
  | bool (b : Bool) : Good (.bool b)
  | num (q : ℚ) : (q * 1000000).den = 1 → Good (.num (.fin q))
  | str (s : List Char) : cleanString s → Good (.str s)
  | arr (es : List JsonValue) : (∀ v ∈ es, Good v) → Good (.arr es)
  | obj (ms : List (List Char × JsonValue)) :
      ms.Pairwise (fun a b => strLt a.1 b.1 = true) →
      (∀ p ∈ ms, cleanString p.1) → (∀ p ∈ ms, Good p.2) → Good (.obj ms)

/-! ### Basic lemmas about the lexers -/

theorem skipWhitespace_length_le (rem : List Char) (pos : Nat) :
    (skipWhitespace rem pos).1.length ≤ rem.length := by
  induction rem generalizing pos with
  | nil => simp [skipWhitespace]
  | cons c rest ih =>
    simp only [skipWhitespace]
    split
    · exact le_trans (ih (pos + 1)) (by simp)
    · simp

theorem skipWhitespace_not_ws (c : Char) (rest : List Char) (pos : Nat)
    (h : isWhitespace c = false) :
    skipWhitespace (c :: rest) pos = (c :: rest, pos) := by
  simp [skipWhitespace, h]

theorem skipWhitespace_ws (c : Char) (rest : List Char) (pos : Nat)
    (h : isWhitespace c = true) :
    skipWhitespace (c :: rest) pos = skipWhitespace rest (pos + 1) := by
  simp [skipWhitespace, h]

theorem skipSeparator_length_le (rem : List Char) (pos : Nat) :
    (skipSeparator rem pos).2.1.length ≤ rem.length := by
  unfold skipSeparator
  have h1 := skipWhitespace_length_le rem pos
  rcases hs : skipWhitespace rem pos with ⟨r1, p1⟩
  rw [hs] at h1
  simp only [] at h1 ⊢
  split
  · rename_i tl
    have h2 := skipWhitespace_length_le tl (p1 + 1)
    simp at h1 h2 ⊢
    omega
  · simpa using h1

theorem parseStringLoop_length_lt_aux (oob : Nat → Char) :
    ∀ n rem, rem.length ≤ n →
      ∀ pos acc s r p, parseStringLoop oob rem pos acc = .ok (s, r, p) →
        r.length < rem.length := by
  intro n
  induction n with
  | zero =>
    intro rem hn pos acc s r p h
    cases rem with
    | nil => simp [parseStringLoop] at h
    | cons ch rest => simp at hn
  | succ n ih =>
    intro rem hn pos acc s r p h
    cases rem with
    | nil => simp [parseStringLoop] at h
    | cons ch rest =>
      rw [parseStringLoop.eq_def] at h
      simp only [] at h
      split at h
      · cases rest with
        | nil => simp at h
        | cons c2 rest2 =>
          simp only [] at h
          split at h
          · simp at h
          · split at h
            · simp at h
            · have hlen : rest2.length ≤ n := by simp at hn; omega
              have := ih rest2 hlen _ _ _ _ _ h
              simp
              omega
      · split at h
        · simp only [Except.ok.injEq, Prod.mk.injEq] at h
          obtain ⟨-, h2, -⟩ := h
          subst h2
          simp
        · have hlen : rest.length ≤ n := by simp at hn; omega
          have := ih rest hlen _ _ _ _ _ h
          simp
          omega

theorem parseStringLoop_length_lt (oob : Nat → Char) (rem : List Char)
    (pos : Nat) (acc s r : List Char) (p : Nat)
    (h : parseStringLoop oob rem pos acc = .ok (s, r, p)) :
    r.length < rem.length :=
  parseStringLoop_length_lt_aux oob rem.length rem le_rfl pos acc s r p h

theorem parseString_length_lt (oob : Nat → Char) (rem : List Char) (pos : Nat)
    (s r : List Char) (p : Nat) (h : parseString oob rem pos = .ok (s, r, p)) :
    r.length < rem.length := by
  unfold parseString at h
  have hlt := parseStringLoop_length_lt oob rem.tail (pos + 1) [] s r p h
  cases rem with
  | nil => simp at hlt
  | cons c rest => simp at hlt ⊢; omega

/-! ### Lemmas about the string order and object insertion -/

theorem strLt_irrefl : ∀ k, strLt k k = false := by
  intro k
  induction k with
  | nil => rfl
  | cons c rest ih => simp [strLt, ih]

theorem strLt_asymm : ∀ k1 k2, strLt k1 k2 = true → strLt k2 k1 = false := by
  intro k1
  induction k1 with
  | nil =>
    intro k2 h
    cases k2 with
    | nil => simpa [strLt] using h
    | cons c rest => rfl
  | cons c rest ih =>
    intro k2 h
    cases k2 with
    | nil => simp [strLt] at h
    | cons c2 rest2 =>
      simp only [strLt] at h ⊢
      by_cases h1 : c < c2
      · have h2 : ¬ c2 < c := lt_asymm h1
        simp [h1, h2]
      · by_cases h2 : c2 < c
        · simp [h1, h2] at h
        · rw [if_neg h1, if_neg h2] at h
          rw [if_neg h2, if_neg h1]
          exact ih _ h

/-- Inserting a key greater than every key already present appends at the
end. -/
theorem objEmplace_append (ms : List (List Char × JsonValue)) (k : List Char)
    (v : JsonValue) (h : ∀ p ∈ ms, strLt p.1 k = true) :
    objEmplace ms k v = ms ++ [(k, v)] := by
  induction ms with
  | nil => rfl
  | cons hd tl ih =>
    obtain ⟨k0, v0⟩ := hd
    have hk0 : strLt k0 k = true := h (k0, v0) (by simp)
    simp only [objEmplace, strLt_asymm _ _ hk0, hk0]
    simp [ih (fun p hp => h p (by simp [hp]))]

theorem takeWhile_length_le {α : Type} (p : α → Bool) (l : List α) :
    (l.takeWhile p).length ≤ l.length := by
  induction l with
  | nil => simp
  | cons a t ih =>
    by_cases h : p a
    · simp [List.takeWhile_cons, h]; omega
    · simp [List.takeWhile_cons, h]

/-! ### Cursor progress of the grammar rules

A successful `parseValue` always consumes at least one character; the loops
never grow the remaining input.  This is the heart of the termination
argument of §5 of the specification. -/

theorem parseF_progress : ∀ f oob,
    (∀ rem pos v r p, parseValueF oob f rem pos = some (.ok (v, r, p)) →
        r.length < rem.length)
    ∧ (∀ values rem pos v r p,
        parseArrayLoopF oob f values rem pos = some (.ok (v, r, p)) →
          r.length ≤ rem.length)
    ∧ (∀ ob rem pos v r p,
        parseObjectLoopF oob f ob rem pos = some (.ok (v, r, p)) →
          r.length ≤ rem.length) := by
  intro f
  induction f with
  | zero =>
    intro oob
    refine ⟨?_, ?_, ?_⟩
    · intro rem pos v r p h; simp [parseValueF] at h
    · intro values rem pos v r p h; simp [parseArrayLoopF] at h
    · intro ob rem pos v r p h; simp [parseObjectLoopF] at h
  | succ g ih =>
    intro oob
    obtain ⟨ihV, ihA, ihO⟩ := ih oob
    refine ⟨?_, ?_, ?_⟩
    · -- parseValue consumes at least one character on success
      intro rem pos v r p h
      rw [parseValueF.eq_def] at h
      simp only [] at h
      have hskip0 := skipWhitespace_length_le rem pos
      rcases hskip : skipWhitespace rem pos with ⟨r1, p1⟩
      rw [hskip] at h hskip0
      simp only [] at h hskip0
      cases r1 with
      | nil => simp at h
      | cons c rest =>
        simp only [List.length_cons] at hskip0
        simp only [] at h
        split at h
        · have := ihO [] rest (p1 + 1) v r p h
          simp at this ⊢
          omega
        · split at h
          · have := ihA [] rest (p1 + 1) v r p h
            simp at this ⊢
            omega
          · split at h
            · rcases hstr : parseString oob (c :: rest) p1 with e | ⟨s, r2, p2⟩
              · rw [hstr] at h; simp at h
              · rw [hstr] at h
                simp only [Option.some.injEq, Except.ok.injEq, Prod.mk.injEq] at h
                obtain ⟨-, h2, -⟩ := h
                subst h2
                have := parseString_length_lt oob (c :: rest) p1 s r2 p2 hstr
                simp at this ⊢
                omega
            · -- literal / number scan
              split at h
              · simp at h
              · next hne =>
                have hlen1 : 0 < ((c :: rest).takeWhile
                    (fun ch => valueChars.contains ch)).length :=
                  List.length_pos.mpr hne
                have hlen2 : ((c :: rest).takeWhile
                    (fun ch => valueChars.contains ch)).length ≤ (c :: rest).length :=
                  takeWhile_length_le _ _
                have hdone : ∀ v0 : JsonValue, (some (Except.ok (v0,
                    (c :: rest).drop ((c :: rest).takeWhile
                      (fun ch => valueChars.contains ch)).length,
                    p1 + ((c :: rest).takeWhile
                      (fun ch => valueChars.contains ch)).length)) :
                      Option (Except Error (JsonValue × List Char × Nat))) =
                    some (Except.ok (v, r, p)) → r.length < rem.length := by
                  intro v0 hh
                  simp only [Option.some.injEq, Except.ok.injEq, Prod.mk.injEq] at hh
                  obtain ⟨-, h2, -⟩ := hh
                  subst h2
                  simp only [List.length_drop, List.length_cons] at hlen2 ⊢
                  omega
                split at h
                · exact hdone _ h
                · split at h
                  · exact hdone _ h
                  · split at h
                    · exact hdone _ h
                    · split at h
                      · simp at h
                      · exact hdone _ h
    · -- the array loop never grows the input
      intro values rem pos v r p h
      rw [parseArrayLoopF.eq_def] at h
      simp only [] at h
      cases rem with
      | nil =>
        simp only [Option.some.injEq, Except.ok.injEq, Prod.mk.injEq] at h
        obtain ⟨-, h2, -⟩ := h
        subst h2
        simp
      | cons c0 rest0 =>
        have hskip0 := skipWhitespace_length_le (c0 :: rest0) pos
        rcases hskip : skipWhitespace (c0 :: rest0) pos with ⟨r1, p1⟩
        rw [hskip] at h hskip0
        simp only [] at h hskip0
        cases r1 with
        | nil => simp at h
        | cons c rest =>
          simp only [List.length_cons] at hskip0
          simp only [] at h
          split at h
          · simp only [Option.some.injEq, Except.ok.injEq, Prod.mk.injEq] at h
            obtain ⟨-, h2, -⟩ := h
            subst h2
            simp
            omega
          · rcases hv : parseValueF oob g (c :: rest) p1 with _ | e | ⟨v2, r2, p2⟩
            · rw [hv] at h; simp at h
            · rw [hv] at h; simp at h
            · rw [hv] at h
              simp only [] at h
              have hprog := ihV (c :: rest) p1 v2 r2 p2 hv
              have hsep0 := skipSeparator_length_le r2 p2
              rcases hsep : skipSeparator r2 p2 with ⟨sep, r3, p3⟩
              rw [hsep] at h hsep0
              simp only [] at h hsep0
              split at h
              · simp only [Option.some.injEq, Except.ok.injEq, Prod.mk.injEq] at h
                obtain ⟨-, h2, -⟩ := h
                subst h2
                simp at hprog hsep0 ⊢
                omega
              · split at h
                · have := ihA (values ++ [v2]) r3 p3 v r p h
                  simp at hprog ⊢
                  omega
                · simp at h
    · -- the object loop never grows the input
      intro ob rem pos v r p h
      rw [parseObjectLoopF.eq_def] at h
      simp only [] at h
      cases rem with
      | nil =>
        simp only [Option.some.injEq, Except.ok.injEq, Prod.mk.injEq] at h
        obtain ⟨-, h2, -⟩ := h
        subst h2
        simp
      | cons c0 rest0 =>
        have hskip0 := skipWhitespace_length_le (c0 :: rest0) pos
        rcases hskip : skipWhitespace (c0 :: rest0) pos with ⟨r1, p1⟩
        rw [hskip] at h hskip0
        simp only [] at h hskip0
        cases r1 with
        | nil => simp at h
        | cons c rest =>
          simp only [List.length_cons] at hskip0
          simp only [] at h
          split at h
          · simp only [Option.some.injEq, Except.ok.injEq, Prod.mk.injEq] at h
            obtain ⟨-, h2, -⟩ := h
            subst h2
            simp
            omega
          · split at h
            · simp at h
            · rcases hstr : parseString oob (c :: rest) p1 with e | ⟨key, r2, p2⟩
              · rw [hstr] at h; simp at h
              · rw [hstr] at h
                simp only [] at h
                have hkey := parseString_length_lt oob (c :: rest) p1 key r2 p2 hstr
                have hsk2 := skipWhitespace_length_le r2 p2
                rcases hskip2 : skipWhitespace r2 p2 with ⟨r3, p3⟩
                rw [hskip2] at h hsk2
                simp only [] at h hsk2
                split at h
                · rename_i rest4
                  have hsk3 := skipWhitespace_length_le rest4 (p3 + 1)
                  rcases hskip3 : skipWhitespace rest4 (p3 + 1) with ⟨r5, p5⟩
                  rw [hskip3] at h hsk3
                  simp only [] at h hsk3
                  cases r5 with
                  | nil => simp at h
                  | cons c5 rest5 =>
                    rcases hv : parseValueF oob g (c5 :: rest5) p5 with _ | e | ⟨v2, r6, p6⟩
                    · rw [hv] at h; simp at h
                    · rw [hv] at h; simp at h
                    · rw [hv] at h
                      simp only [] at h
                      have hprog := ihV (c5 :: rest5) p5 v2 r6 p6 hv
                      have hsep0 := skipSeparator_length_le r6 p6
                      rcases hsep : skipSeparator r6 p6 with ⟨sep, r7, p7⟩
                      rw [hsep] at h hsep0
                      simp only [] at h hsep0
                      split at h
                      · simp only [Option.some.injEq, Except.ok.injEq, Prod.mk.injEq] at h
                        obtain ⟨-, h2, -⟩ := h
                        subst h2
                        simp at hprog hsep0 hkey hsk2 hsk3 ⊢
                        omega
                      · split at h
                        · have := ihO (objEmplace ob key v2) r7 p7 v r p h
                          simp at hprog hkey hsk2 hsk3 ⊢
                          omega
                        · simp at h
                · simp at h

/-! ### Fuel sufficiency: `2 * length + 1` steps always finish the parse -/

theorem parseF_sufficient : ∀ f oob,
    (∀ rem pos, 2 * rem.length + 1 ≤ f → parseValueF oob f rem pos ≠ none)
    ∧ (∀ values rem pos, 2 * rem.length + 2 ≤ f →
        parseArrayLoopF oob f values rem pos ≠ none)
    ∧ (∀ ob rem pos, 2 * rem.length + 2 ≤ f →
        parseObjectLoopF oob f ob rem pos ≠ none) := by
  intro f
  induction f with
  | zero =>
    intro oob
    refine ⟨?_, ?_, ?_⟩
    · intro rem pos hf; omega
    · intro values rem pos hf; omega
    · intro ob rem pos hf; omega
  | succ g ih =>
    intro oob
    obtain ⟨ihV, ihA, ihO⟩ := ih oob
    have prog := parseF_progress g oob
    refine ⟨?_, ?_, ?_⟩
    · intro rem pos hf
      rw [parseValueF.eq_def]
      simp only []
      have hskip0 := skipWhitespace_length_le rem pos
      rcases hskip : skipWhitespace rem pos with ⟨r1, p1⟩
      rw [hskip] at hskip0
      simp only [] at hskip0 ⊢
      cases r1 with
      | nil => simp
      | cons c rest =>
        simp only [List.length_cons] at hskip0
        simp only []
        split
        · exact ihO [] rest (p1 + 1) (by omega)
        · split
          · exact ihA [] rest (p1 + 1) (by omega)
          · split
            · rcases hstr : parseString oob (c :: rest) p1 with e | ⟨s, r2, p2⟩ <;> simp
            · split
              · simp
              · split
                · simp
                · split
                  · simp
                  · split
                    · simp
                    · split <;> simp
    · intro values rem pos hf
      rw [parseArrayLoopF.eq_def]
      simp only []
      cases rem with
      | nil => simp
      | cons c0 rest0 =>
        simp only [List.length_cons] at hf
        have hskip0 := skipWhitespace_length_le (c0 :: rest0) pos
        rcases hskip : skipWhitespace (c0 :: rest0) pos with ⟨r1, p1⟩
        rw [hskip] at hskip0
        simp only [List.length_cons] at hskip0
        simp only []
        cases r1 with
        | nil => simp
        | cons c rest =>
          simp only [List.length_cons] at hskip0
          simp only []
          split
          · simp
          · rcases hv : parseValueF oob g (c :: rest) p1 with _ | e | ⟨v2, r2, p2⟩
            · exact absurd hv (ihV (c :: rest) p1 (by simp only [List.length_cons]; omega))
            · simp
            · simp only []
              have hprog := prog.1 (c :: rest) p1 v2 r2 p2 hv
              simp only [List.length_cons] at hprog
              have hsep0 := skipSeparator_length_le r2 p2
              rcases hsep : skipSeparator r2 p2 with ⟨sep, r3, p3⟩
              rw [hsep] at hsep0
              simp only [] at hsep0 ⊢
              split
              · simp
              · split
                · exact ihA (values ++ [v2]) r3 p3 (by omega)
                · simp
    · intro ob rem pos hf
      rw [parseObjectLoopF.eq_def]
      simp only []
      cases rem with
      | nil => simp
      | cons c0 rest0 =>
        simp only [List.length_cons] at hf
        have hskip0 := skipWhitespace_length_le (c0 :: rest0) pos
        rcases hskip : skipWhitespace (c0 :: rest0) pos with ⟨r1, p1⟩
        rw [hskip] at hskip0
        simp only [List.length_cons] at hskip0
        simp only []
        cases r1 with
        | nil => simp
        | cons c rest =>
          simp only [List.length_cons] at hskip0
          simp only []
          split
          · simp
          · split
            · simp
            · rcases hstr : parseString oob (c :: rest) p1 with e | ⟨key, r2, p2⟩
              · simp
              · simp only []
                have hkey := parseString_length_lt oob (c :: rest) p1 key r2 p2 hstr
                simp only [List.length_cons] at hkey
                have hsk2 := skipWhitespace_length_le r2 p2
                rcases hskip2 : skipWhitespace r2 p2 with ⟨r3, p3⟩
                rw [hskip2] at hsk2
                simp only [] at hsk2 ⊢
                split
                · rename_i rest4
                  have hsk3 := skipWhitespace_length_le rest4 (p3 + 1)
                  rcases hskip3 : skipWhitespace rest4 (p3 + 1) with ⟨r5, p5⟩
                  rw [hskip3] at hsk3
                  simp only [] at hsk3 ⊢
                  cases r5 with
                  | nil => simp
                  | cons c5 rest5 =>
                    simp only []
                    rcases hv : parseValueF oob g (c5 :: rest5) p5 with _ | e | ⟨v2, r6, p6⟩
                    · refine absurd hv (ihV (c5 :: rest5) p5 ?_)
                      simp only [List.length_cons] at hsk2 hsk3 ⊢
                      omega
                    · simp
                    · simp only []
                      have hprog := prog.1 (c5 :: rest5) p5 v2 r6 p6 hv
                      simp only [List.length_cons] at hprog
                      have hsep0 := skipSeparator_length_le r6 p6
                      rcases hsep : skipSeparator r6 p6 with ⟨sep, r7, p7⟩
                      rw [hsep] at hsep0
                      simp only [] at hsep0 ⊢
                      split
                      · simp
                      · split
                        · refine ihO (objEmplace ob key v2) r7 p7 ?_
                          simp only [List.length_cons] at hsk2 hsk3 ⊢
                          omega
                        · simp
                · simp

/-! ### Fuel monotonicity: a completed run is unchanged by extra fuel -/

theorem parseF_mono : ∀ g oob,
    (∀ g' rem pos r, g ≤ g' → parseValueF oob g rem pos = some r →
        parseValueF oob g' rem pos = some r)
    ∧ (∀ g' values rem pos r, g ≤ g' →
        parseArrayLoopF oob g values rem pos = some r →
          parseArrayLoopF oob g' values rem pos = some r)
    ∧ (∀ g' ob rem pos r, g ≤ g' →
        parseObjectLoopF oob g ob rem pos = some r →
          parseObjectLoopF oob g' ob rem pos = some r) := by
  intro g
  induction g with
  | zero =>
    intro oob
    refine ⟨?_, ?_, ?_⟩
    · intro g' rem pos r _ h; simp [parseValueF] at h
    · intro g' values rem pos r _ h; simp [parseArrayLoopF] at h
    · intro g' ob rem pos r _ h; simp [parseObjectLoopF] at h
  | succ g ih =>
    intro oob
    obtain ⟨ihV, ihA, ihO⟩ := ih oob
    refine ⟨?_, ?_, ?_⟩
    · intro g' rem pos r hle h
      match g', hle with
      | g2 + 1, hle =>
        have hg : g ≤ g2 := by omega
        rw [parseValueF.eq_def] at h ⊢
        simp only [] at h ⊢
        rcases hskip : skipWhitespace rem pos with ⟨r1, p1⟩
        rw [hskip] at h
        simp only [] at h ⊢
        cases r1 with
        | nil => exact h
        | cons c rest =>
          simp only [] at h ⊢
          split at h
          · next hc =>
            rw [if_pos hc]
            exact ihO g2 [] rest (p1 + 1) r hg h
          · next hc1 =>
            rw [if_neg hc1]
            split at h
            · next hc =>
              rw [if_pos hc]
              exact ihA g2 [] rest (p1 + 1) r hg h
            · next hc2 =>
              rw [if_neg hc2]
              exact h
    · intro g' values rem pos r hle h
      match g', hle with
      | g2 + 1, hle =>
        have hg : g ≤ g2 := by omega
        rw [parseArrayLoopF.eq_def] at h ⊢
        simp only [] at h ⊢
        cases rem with
        | nil => exact h
        | cons c0 rest0 =>
          rcases hskip : skipWhitespace (c0 :: rest0) pos with ⟨r1, p1⟩
          rw [hskip] at h
          simp only [] at h ⊢
          cases r1 with
          | nil => exact h
          | cons c rest =>
            simp only [] at h ⊢
            split at h
            · next hc =>
              rw [if_pos hc]
              exact h
            · next hc =>
              rw [if_neg hc]
              rcases hv : parseValueF oob g (c :: rest) p1 with _ | e | ⟨v2, r2, p2⟩
              · rw [hv] at h; simp at h
              · rw [hv] at h
                rw [ihV g2 (c :: rest) p1 _ hg hv]
                exact h
              · rw [hv] at h
                rw [ihV g2 (c :: rest) p1 _ hg hv]
                simp only [] at h ⊢
                rcases hsep : skipSeparator r2 p2 with ⟨sep, r3, p3⟩
                rw [hsep] at h
                simp only [] at h ⊢
                split
                · exact h
                · next x hne =>
                  split at h
                  · next rest3 =>
                    exact absurd rfl (hne rest3)
                  · by_cases hq : sep = true
                    · rw [if_pos hq] at h ⊢
                      exact ihA g2 (values ++ [v2]) r3 p3 r hg h
                    · rw [if_neg hq] at h ⊢
                      exact h
    · intro g' ob rem pos r hle h
      match g', hle with
      | g2 + 1, hle =>
        have hg : g ≤ g2 := by omega
        rw [parseObjectLoopF.eq_def] at h ⊢
        simp only [] at h ⊢
        cases rem with
        | nil => exact h
        | cons c0 rest0 =>
          rcases hskip : skipWhitespace (c0 :: rest0) pos with ⟨r1, p1⟩
          rw [hskip] at h
          simp only [] at h ⊢
          cases r1 with
          | nil => exact h
          | cons c rest =>
            simp only [] at h ⊢
            split at h
            · next hc =>
              rw [if_pos hc]
              exact h
            · next hc =>
              rw [if_neg hc]
              split at h
              · next hc2 =>
                rw [if_pos hc2]
                exact h
              · next hc2 =>
                rw [if_neg hc2]
                rcases hstr : parseString oob (c :: rest) p1 with e | ⟨key, r2, p2⟩
                · rw [hstr] at h
                  exact h
                · rw [hstr] at h
                  simp only [] at h ⊢
                  rcases hskip2 : skipWhitespace r2 p2 with ⟨r3, p3⟩
                  rw [hskip2] at h
                  simp only [] at h ⊢
                  split
                  · next rest4 =>
                    simp only [] at h ⊢
                    rcases hskip3 : skipWhitespace rest4 (p3 + 1) with ⟨r5, p5⟩
                    rw [hskip3] at h
                    simp only [] at h ⊢
                    cases r5 with
                    | nil => exact h
                    | cons c5 rest5 =>
                      simp only [] at h ⊢
                      rcases hv : parseValueF oob g (c5 :: rest5) p5 with _ | e | ⟨v2, r6, p6⟩
                      · rw [hv] at h; simp at h
                      · rw [hv] at h
                        rw [ihV g2 (c5 :: rest5) p5 _ hg hv]
                        exact h
                      · rw [hv] at h
                        rw [ihV g2 (c5 :: rest5) p5 _ hg hv]
                        simp only [] at h ⊢
                        rcases hsep : skipSeparator r6 p6 with ⟨sep, r7, p7⟩
                        rw [hsep] at h
                        simp only [] at h ⊢
                        split
                        · exact h
                        · next x hne =>
                          split at h
                          · next rest7 =>
                            exact absurd rfl (hne rest7)
                          · by_cases hq : sep = true
                            · rw [if_pos hq] at h ⊢
                              exact ihO g2 (objEmplace ob key v2) r7 p7 r hg h
                            · rw [if_neg hq] at h ⊢
                              exact h
                  · next x hne =>
                    split at h
                    · next rest4 =>
                      exact absurd rfl (hne rest4)
                    · exact h

/-- Any completed run agrees with the canonical run at fuel
`2 * length + 1`. -/
theorem parseValueF_agree (oob : Nat → Char) (source : List Char) (f : Nat)
    (r : Except Error (JsonValue × List Char × Nat))
    (h : parseValueF oob f source 0 = some r) :
    parseValueF oob (2 * source.length + 1) source 0 = some r := by
  by_cases hf : f ≤ 2 * source.length + 1
  · exact (parseF_mono f oob).1 _ source 0 r hf h
  · rcases hr2 : parseValueF oob (2 * source.length + 1) source 0 with _ | r2
    · exact absurd hr2 ((parseF_sufficient (2 * source.length + 1) oob).1 source 0 le_rfl)
    · have h2 := (parseF_mono (2 * source.length + 1) oob).1 f source 0 r2 (by omega) hr2
      rw [h2] at h
      simp only [Option.some.injEq] at h
      rw [h]

/-- A completed `parseValue` run determines the result of `parse`. -/
theorem parse_of_parseValueF (oob : Nat → Char) (source : List Char) (f : Nat)
    (v : JsonValue) (rm : List Char) (p : Nat)
    (h : parseValueF oob f source 0 = some (.ok (v, rm, p))) :
    parse oob source = .ok v := by
  unfold parse
  rw [parseValueF_agree oob source f _ h]

/-! ### Claim theorems -/

/-- C1: the claim states that every recognized escape in a string token is
replaced by its single-character meaning (`\n` to newline, `\t` to tab, …).
The code instead reads the escape selector from the output buffer
(`str[cursor]`, line 24) and never looks at the escape character in the
source, so the inputs `"\n"` and `"\t"` — which the claim requires to parse
to the two different strings `"\n"` and `"\t"` — produce identical results
whatever the out-of-range read yields; under the typical zero-byte read
both fail with `Invalid character escape`. -/
theorem parseString_escape_reads_output_buffer :
    (∀ oob : Nat → Char,
      parse oob ['"', '\\', 'n', '"'] = parse oob ['"', '\\', 't', '"'])
    ∧ parse zeroOob ['"', '\\', 'n', '"'] =
        .error ⟨2, "Invalid character escape"⟩ := by
  constructor
  · intro oob
    rfl
  · with_unfolding_all rfl

/-- C2: the claim states that a buffer exhausted inside an open array or
object yields `Unterminated array` / `Unterminated object`, and that `[`,
`[1,` and `{` do not parse.  In the code, the loops `while (cursor <
source.size())` fall through to the success return `JsonValue(values)` /
`JsonValue(obj)` when the buffer is exhausted exactly at the loop head, so
`[`, `{` and `[1,` all parse successfully; the unterminated errors fire
only when trailing whitespace moves the exhaustion point inside the loop
body, as in `[ ` and `{ `. -/
theorem parse_accepts_unterminated_array_object :
    parse zeroOob ['['] = .ok (.arr [])
    ∧ parse zeroOob ['{'] = .ok (.obj [])
    ∧ parse zeroOob "[1,".toList = .ok (.arr [.num (.fin 1)])
    ∧ parse zeroOob "[ ".toList = .error ⟨2, "Unterminated array"⟩
    ∧ parse zeroOob "\x7b ".toList = .error ⟨2, "Unterminated object"⟩ := by
  refine ⟨?_, ?_, ?_, ?_, ?_⟩ <;> with_unfolding_all rfl

/-- C3: the claim states that `"A"` fails with exactly
`Unicode escapes are not implemented yet`.  Because the escape selector is
read from the output buffer (line 24), the parser cannot see the `u` in the
source at all: `"A"` is indistinguishable from `"\n0041"`, and under
the typical zero-byte out-of-range read it fails with
`Invalid character escape` instead of the dedicated message. -/
theorem unicode_escape_not_detected :
    (∀ oob : Nat → Char,
      parse oob ['"', '\\', 'u', '0', '0', '4', '1', '"'] =
        parse oob ['"', '\\', 'n', '0', '0', '4', '1', '"'])
    ∧ parse zeroOob ['"', '\\', 'u', '0', '0', '4', '1', '"'] =
        .error ⟨2, "Invalid character escape"⟩ := by
  constructor
  · intro oob
    rfl
  · with_unfolding_all rfl

/-- C5: the claim states that `getContext` performs no out-of-range buffer
access for any cursor offset up to and including the buffer length.  The
backward line scan starts by reading `str[lineStart]` with
`lineStart = cursor` guarded only by `lineStart > 0`, so a cursor equal to
the length of a nonempty buffer — exactly what parse errors at buffer
exhaustion produce, e.g. `Unterminated string` at offset 2 on the 2-byte
input `"a` — reads one past the end of the buffer (undefined behaviour for
`std::string_view::operator[]`). -/
theorem getContext_oob_at_buffer_end :
    getContextChk ['a'] 1 = none
    ∧ parse zeroOob ['"', 'a'] = .error ⟨2, "Unterminated string"⟩
    ∧ getContextChk ['"', 'a'] 2 = none
    ∧ getContextChk "ab\ncd".toList 4 =
        some ("cd\n ^").toList := by
  refine ⟨?_, ?_, ?_, ?_⟩ <;> with_unfolding_all rfl

/-- C6: the claim states that the literal/number scan set contains every
lowercase letter a-z.  The charset literal on line 213 skips from `j`
directly to `l`: lowercase `k` is missing.  Consequently the scan stops in
front of `k`; at input `k` the captured token is empty and the parse fails
with `Value must not be empty`, while at input `j` the token `j` is
captured and the parse fails with `Invalid number` as the claim's reading
would predict for every letter. -/
theorem valueChars_missing_lowercase_k :
    valueChars.contains 'k' = false
    ∧ valueChars.contains 'j' = true
    ∧ valueChars.contains 'K' = true
    ∧ parse zeroOob ['k'] = .error ⟨0, "Value must not be empty"⟩
    ∧ parse zeroOob ['j'] = .error ⟨0, "Invalid number"⟩ := by
  refine ⟨?_, ?_, ?_, ?_, ?_⟩ <;> with_unfolding_all rfl

/-- C7: lookup by key and by index are total: on an object with a present
key (resp. an array with an in-range index) they return that member
(element); on every other combination — wrong container kind, missing key,
out-of-range index — they return the `Invalid` sentinel, and `isValid` of
the sentinel is false. -/
theorem lookup_total :
    (∀ o k u, findMember o k = some u → getKey (.obj o) k = u)
    ∧ (∀ o k, findMember o k = none → getKey (.obj o) k = .invalid)
    ∧ (∀ (v : JsonValue) k, (∀ o, v ≠ .obj o) → getKey v k = .invalid)
    ∧ (∀ (a : List JsonValue) i (h : i < a.length),
        getIdx (.arr a) i = a.get ⟨i, h⟩)
    ∧ (∀ (a : List JsonValue) i, a.length ≤ i → getIdx (.arr a) i = .invalid)
    ∧ (∀ (v : JsonValue) i, (∀ a, v ≠ .arr a) → getIdx v i = .invalid)
    ∧ isValid .invalid = false := by
  refine ⟨?_, ?_, ?_, ?_, ?_, ?_, rfl⟩
  · intro o k u h
    simp [getKey, h]
  · intro o k h
    simp [getKey, h]
  · intro v k h
    cases v <;> first
      | rfl
      | exact absurd rfl (h _)
  · intro a i h
    simp [getIdx, List.getElem?_eq_getElem h]
  · intro a i h
    simp [getIdx, List.getElem?_eq_none h]
  · intro v i h
    cases v <;> first
      | rfl
      | exact absurd rfl (h _)

/-- Witness for C7 at concrete inputs: a hit on an object, a key lookup on
a number, an in-range and an out-of-range index on an array, and the
sentinel's validity. -/
theorem lookup_total_witness :
    getKey (.obj [(['a'], .null)]) ['a'] = .null
    ∧ getKey (.num (.fin 1)) ['a'] = .invalid
    ∧ getIdx (.arr [.bool true]) 0 = .bool true
    ∧ getIdx (.arr [.bool true]) 1 = .invalid
    ∧ isValid .invalid = false :=
  ⟨lookup_total.1 [(['a'], .null)] ['a'] .null (by with_unfolding_all rfl),
   lookup_total.2.2.1 (.num (.fin 1)) ['a'] (fun o h => by cases h),
   lookup_total.2.2.2.1 [.bool true] 0 (by decide),
   lookup_total.2.2.2.2.1 [.bool true] 1 (by decide),
   lookup_total.2.2.2.2.2.2⟩

/-- C8: parsing always terminates and is bounded by the buffer length: the
fueled embedding of the mutually recursive grammar rules never exhausts a
fuel budget of `2 * length + 1` (each loop iteration and recursive
sub-parse advances the cursor or returns), and any larger budget computes
the same result. -/
theorem parse_terminates (oob : Nat → Char) (source : List Char) (fuel : Nat)
    (h : 2 * source.length + 1 ≤ fuel) :
    parseValueF oob fuel source 0 =
      parseValueF oob (2 * source.length + 1) source 0
    ∧ parseValueF oob (2 * source.length + 1) source 0 ≠ none := by
  have hsuff := (parseF_sufficient (2 * source.length + 1) oob).1 source 0 le_rfl
  rcases hr : parseValueF oob (2 * source.length + 1) source 0 with _ | r
  · exact absurd hr hsuff
  · refine ⟨?_, by simp⟩
    exact (parseF_mono (2 * source.length + 1) oob).1 fuel source 0 r h hr

/-- Witness for C8 at the concrete input `[1]` with fuel 10. -/
theorem parse_terminates_witness :
    2 * (['[', '1', ']'] : List Char).length + 1 ≤ 10
    ∧ (parseValueF zeroOob 10 ['[', '1', ']'] 0 =
        parseValueF zeroOob (2 * (['[', '1', ']'] : List Char).length + 1)
          ['[', '1', ']'] 0
      ∧ parseValueF zeroOob (2 * (['[', '1', ']'] : List Char).length + 1)
          ['[', '1', ']'] 0 ≠ none) :=
  ⟨by decide, parse_terminates zeroOob ['[', '1', ']'] 10 (by decide)⟩

/-- C9: `parse` consumes exactly one value from the front of the buffer:
whenever the value rule succeeds at the front — whatever unconsumed bytes
remain — `parse` returns that value and never reports trailing content;
concretely, `true garbage` parses to `true` and `1 2` parses to `1`. -/
theorem parse_ignores_trailing :
    (∀ (oob : Nat → Char) (source : List Char) (fuel : Nat) v rm p,
        parseValueF oob fuel source 0 = some (.ok (v, rm, p)) →
          parse oob source = .ok v)
    ∧ parse zeroOob "true garbage".toList = .ok (.bool true)
    ∧ parse zeroOob "1 2".toList = .ok (.num (.fin 1)) := by
  refine ⟨?_, ?_, ?_⟩
  · intro oob source fuel v rm p h
    exact parse_of_parseValueF oob source fuel v rm p h
  · with_unfolding_all rfl
  · with_unfolding_all rfl

/-- Witness for C9: at `true garbage` the value rule succeeds at the front
with `true`, leaving ` garbage` unread, and `parse` returns that value. -/
theorem parse_ignores_trailing_witness :
    parseValueF zeroOob 25 "true garbage".toList 0 =
      some (.ok (.bool true, " garbage".toList, 4))
    ∧ parse zeroOob "true garbage".toList = .ok (.bool true) :=
  ⟨by with_unfolding_all rfl,
   parse_ignores_trailing.1 zeroOob "true garbage".toList 25 (.bool true)
     " garbage".toList 4 (by with_unfolding_all rfl)⟩

/-- C10: the literal/number scan feeds `std::from_chars`, which accepts the
non-JSON tokens `inf`, `infinity` and `nan` case-insensitively, optionally
with a minus sign: these inputs parse successfully to Number values
(the infinities and NaN) rather than failing with `Invalid number`. -/
theorem parse_accepts_inf_nan :
    parse zeroOob "inf".toList = .ok (.num (.inf false))
    ∧ parse zeroOob "-inf".toList = .ok (.num (.inf true))
    ∧ parse zeroOob "nan".toList = .ok (.num .nan)
    ∧ parse zeroOob "Infinity".toList = .ok (.num (.inf false))
    ∧ parse zeroOob "NAN".toList = .ok (.num .nan)
    ∧ parse zeroOob "-INF".toList = .ok (.num (.inf true)) := by
  refine ⟨?_, ?_, ?_, ?_, ?_, ?_⟩ <;> with_unfolding_all rfl

/-! ### Helper lemmas for the round-trip theorem: token scanning -/

theorem takeWhile_append_stop {p : Char → Bool} (tok rest : List Char)
    (h1 : ∀ c ∈ tok, p c = true)
    (h2 : rest = [] ∨ ∃ c cs, rest = c :: cs ∧ p c = false) :
    (tok ++ rest).takeWhile p = tok := by
  induction tok with
  | nil =>
    rcases h2 with rfl | ⟨c, cs, rfl, hc⟩
    · rfl
    · simp [List.takeWhile_cons, hc]
  | cons a t ih =>
    simp [List.takeWhile_cons, h1 a (by simp),
      ih (fun c hc => h1 c (by simp [hc]))]

/-! ### Helper lemmas for the round-trip theorem: decimal digits -/

theorem digitsVal_foldl (b : List Char) : ∀ init : Nat,
    b.foldl (fun a c => 10 * a + (c.toNat - 48)) init =
      init * 10 ^ b.length + digitsVal b := by
  induction b with
  | nil => intro init; simp [digitsVal]
  | cons c t ih =>
    intro init
    have h1 := ih (10 * init + (c.toNat - 48))
    have h2 := ih (10 * 0 + (c.toNat - 48))
    simp only [List.foldl_cons, digitsVal] at h1 h2 ⊢
    rw [h1, h2]
    simp only [List.length_cons, pow_succ]
    ring

theorem digitsVal_append (a b : List Char) :
    digitsVal (a ++ b) = digitsVal a * 10 ^ b.length + digitsVal b := by
  unfold digitsVal
  rw [List.foldl_append]
  rw [digitsVal_foldl]
  rfl

theorem digitsVal_zeros (k : Nat) (xs : List Char) :
    digitsVal (List.replicate k '0' ++ xs) = digitsVal xs := by
  induction k with
  | zero => simp
  | succ k ih =>
    simp only [List.replicate_succ, List.cons_append]
    unfold digitsVal at ih ⊢
    simp only [List.foldl_cons]
    convert ih using 2

/-- All the character-level facts about decimal digit characters used
below, checked by computation over `d < 10`. -/
theorem digitChar_props : ∀ d, d < 10 →
    (digitChar d).toNat = 48 + d
    ∧ valueChars.contains (digitChar d) = true
    ∧ (digitChar d).isDigit = true
    ∧ isWhitespace (digitChar d) = false
    ∧ (digitChar d).toLower = digitChar d
    ∧ digitChar d ≠ '-' ∧ digitChar d ≠ '.' ∧ digitChar d ≠ '{'
    ∧ digitChar d ≠ '[' ∧ digitChar d ≠ '"' ∧ digitChar d ≠ ']'
    ∧ digitChar d ≠ '}' ∧ digitChar d ≠ 'n' ∧ digitChar d ≠ 't'
    ∧ digitChar d ≠ 'f' ∧ digitChar d ≠ 'i' ∧ digitChar d ≠ '\\' := by
  decide

theorem natDigitsF_spec : ∀ b n, n < 10 ^ b →
    digitsVal (natDigitsF b n) = n
    ∧ (∀ c ∈ natDigitsF b n, ∃ d, d < 10 ∧ c = digitChar d)
    ∧ (natDigitsF b n).length ≤ b := by
  intro b
  induction b with
  | zero =>
    intro n hn
    have : n = 0 := by simpa using hn
    subst this
    exact ⟨rfl, by simp [natDigitsF], by simp [natDigitsF]⟩
  | succ b ih =>
    intro n hn
    by_cases h10 : n < 10
    · simp only [natDigitsF, if_pos h10]
      refine ⟨?_, ?_, by simp⟩
      · simp [digitsVal, (digitChar_props n h10).1]
      · intro c hc
        simp at hc
        exact ⟨n, h10, hc⟩
    · have hdiv : n / 10 < 10 ^ b := by
        apply Nat.div_lt_of_lt_mul
        rw [pow_succ] at hn
        omega
      obtain ⟨ih1, ih2, ih3⟩ := ih (n / 10) hdiv
      have hmod : n % 10 < 10 := Nat.mod_lt _ (by norm_num)
      simp only [natDigitsF, if_neg h10]
      refine ⟨?_, ?_, ?_⟩
      · rw [digitsVal_append, ih1]
        simp [digitsVal, (digitChar_props _ hmod).1]
        omega
      · intro c hc
        rcases List.mem_append.mp hc with hc | hc
        · exact ih2 c hc
        · simp at hc
          exact ⟨n % 10, hmod, hc⟩
      · simp only [List.length_append, List.length_cons, List.length_nil]
        omega

theorem natDigitsF_irrel : ∀ b b' n, n < 10 ^ b → n < 10 ^ b' →
    1 ≤ b → 1 ≤ b' → natDigitsF b n = natDigitsF b' n := by
  intro b
  induction b with
  | zero => intro b' n _ _ hb _; omega
  | succ b ih =>
    intro b' n hb hb' _ h1b'
    match b', h1b' with
    | b2 + 1, _ =>
      by_cases h10 : n < 10
      · simp [natDigitsF, if_pos h10]
      · have hble : 1 ≤ b := by
          by_contra hc
          have : b = 0 := by omega
          subst this
          simp at hb
          omega
        have hb2le : 1 ≤ b2 := by
          by_contra hc
          have : b2 = 0 := by omega
          subst this
          simp at hb'
          omega
        have hdiv : n / 10 < 10 ^ b := by
          apply Nat.div_lt_of_lt_mul
          rw [pow_succ] at hb
          omega
        have hdiv2 : n / 10 < 10 ^ b2 := by
          apply Nat.div_lt_of_lt_mul
          rw [pow_succ] at hb'
          omega
        simp only [natDigitsF, if_neg h10]
        rw [ih b2 (n / 10) hdiv hdiv2 hble hb2le]

theorem natDigits_eq (n b : Nat) (h : n < 10 ^ b) (hb : 1 ≤ b) :
    natDigits n = natDigitsF b n := by
  unfold natDigits
  refine natDigitsF_irrel (n + 1) b n ?_ h (by omega) hb
  calc n < 10 ^ n := Nat.lt_pow_self (by norm_num) n
    _ ≤ 10 ^ (n + 1) := Nat.pow_le_pow_right (by norm_num) (by omega)

theorem natDigits_spec (n : Nat) :
    digitsVal (natDigits n) = n
    ∧ (∀ c ∈ natDigits n, ∃ d, d < 10 ∧ c = digitChar d)
    ∧ natDigits n ≠ [] := by
  have hlt : n < 10 ^ (n + 1) :=
    calc n < 10 ^ n := Nat.lt_pow_self (by norm_num) n
      _ ≤ 10 ^ (n + 1) := Nat.pow_le_pow_right (by norm_num) (by omega)
  obtain ⟨h1, h2, -⟩ := natDigitsF_spec (n + 1) n hlt
  refine ⟨by simpa [natDigits] using h1, by simpa [natDigits] using h2, ?_⟩
  unfold natDigits
  unfold natDigitsF
  by_cases h10 : n < 10
  · simp [if_pos h10]
  · simp [if_neg h10]

theorem natDigits_length_le (n b : Nat) (h : n < 10 ^ b) (hb : 1 ≤ b) :
    (natDigits n).length ≤ b := by
  rw [natDigits_eq n b h hb]
  exact (natDigitsF_spec b n h).2.2

/-! ### Helper lemmas: evaluating the `from_chars` model on rendered
numbers -/

theorem takeWhile_all {p : Char → Bool} (l : List Char)
    (h : ∀ c ∈ l, p c = true) : l.takeWhile p = l := by
  have := takeWhile_append_stop l [] h (Or.inl rfl)
  simpa using this

/-- Core evaluation: `from_chars` on an all-digits mantissa with one
decimal point recovers the exact decimal value, with and without a leading
minus sign. -/
theorem fromCharsNum_digits (d1 d2 : List Char)
    (h1 : d1 ≠ []) (hd1 : ∀ c ∈ d1, ∃ d, d < 10 ∧ c = digitChar d)
    (hd2 : ∀ c ∈ d2, ∃ d, d < 10 ∧ c = digitChar d) :
    fromCharsNum (d1 ++ '.' :: d2) =
      some (.fin ((digitsVal (d1 ++ d2) : ℚ) / 10 ^ d2.length))
    ∧ fromCharsNum ('-' :: (d1 ++ '.' :: d2)) =
      some (.fin (-((digitsVal (d1 ++ d2) : ℚ) / 10 ^ d2.length))) := by
  rcases d1 with _ | ⟨c0, cs0⟩
  · exact absurd rfl h1
  obtain ⟨dd, hdd, hc0⟩ := hd1 c0 (by simp)
  subst hc0
  have hp := digitChar_props dd hdd
  have htw1 : (digitChar dd :: (cs0 ++ '.' :: d2)).takeWhile Char.isDigit =
      digitChar dd :: cs0 := by
    have h := takeWhile_append_stop (digitChar dd :: cs0) ('.' :: d2)
      (fun c hc => by
        obtain ⟨d, hd, rfl⟩ := hd1 c hc
        exact (digitChar_props d hd).2.2.1)
      (Or.inr ⟨'.', d2, rfl, by decide⟩)
    simpa using h
  have htw2 : d2.takeWhile Char.isDigit = d2 := by
    refine takeWhile_all _ ?_
    intro c hc
    obtain ⟨d, hd, rfl⟩ := hd2 c hc
    exact (digitChar_props d hd).2.2.1
  have hdrop : (digitChar dd :: (cs0 ++ '.' :: d2)).drop
      (digitChar dd :: cs0).length = '.' :: d2 := by
    have h : (digitChar dd :: (cs0 ++ '.' :: d2)) =
        (digitChar dd :: cs0) ++ '.' :: d2 := by simp
    rw [h, List.drop_left]
  have hinf : ("inf".toList : List Char) = 'i' :: 'n' :: 'f' :: [] := rfl
  have hinfinity : ("infinity".toList : List Char) =
      'i' :: 'n' :: 'f' :: 'i' :: 'n' :: 'i' :: 't' :: 'y' :: [] := rfl
  have hnan : ("nan".toList : List Char) = 'n' :: 'a' :: 'n' :: [] := rfl
  have hlow := hp.2.2.2.2.1
  have hni : digitChar dd ≠ 'i' := hp.2.2.2.2.2.2.2.2.2.2.2.2.2.2.2.1
  have hnn : digitChar dd ≠ 'n' := hp.2.2.2.2.2.2.2.2.2.2.2.2.1
  have hnm : digitChar dd ≠ '-' := hp.2.2.2.2.2.1
  constructor
  · have hneg : (decide ((digitChar dd :: (cs0 ++ '.' :: d2)).head? = some '-')) = false := by
      simp [hnm]
    simp only [fromCharsNum, List.cons_append, hneg, Bool.false_eq_true, if_false]
    simp only [List.map_cons, hlow, hinf, hinfinity, hnan]
    rw [if_neg (by simp [hni, hnn])]
    rw [if_neg (by simp [hnn])]
    rw [htw1, hdrop]
    simp only [List.head?_cons, List.tail_cons, htw2]
    simp [List.drop_length]
  · have hneg : (decide (('-' :: (digitChar dd :: (cs0 ++ '.' :: d2))).head? = some '-')) = true := by
      simp
    simp only [fromCharsNum, List.cons_append, hneg, eq_self_iff_true, if_true]
    simp only [List.tail_cons, List.map_cons, hlow, hinf, hinfinity, hnan]
    simp only [htw1, hdrop]
    simp only [List.head?_cons, List.tail_cons, htw2]
    simp [List.drop_length, hni, hnn]

/-! ### The fixed six-decimal rendering parses back exactly -/

theorem fixed6_shape (q : ℚ) (h0 : 0 ≤ q) (h : (q * 1000000).den = 1) :
    ∃ M : Nat, ((M : ℚ) = q * 1000000)
      ∧ fixed6 q = natDigits (M / 1000000) ++ '.' :: pad6 (M % 1000000) := by
  have hq : ((q * 1000000).num : ℚ) = q * 1000000 := by
    conv_rhs => rw [← Rat.num_div_den (q * 1000000)]
    rw [h]
    simp
  have hnum0 : 0 ≤ (q * 1000000).num := by
    rw [Rat.num_nonneg]
    positivity
  refine ⟨(q * 1000000).num.toNat, ?_, ?_⟩
  · rw [← hq]
    norm_cast
    exact Int.toNat_of_nonneg hnum0
  · unfold fixed6
    have hfloor : ⌊q * 1000000 + 1 / 2⌋ = (q * 1000000).num := by
      rw [← hq, add_comm, Int.floor_add_int]
      norm_num
    rw [hfloor]

theorem pad6_facts (f : Nat) (hf : f < 1000000) :
    (∀ c ∈ pad6 f, ∃ d, d < 10 ∧ c = digitChar d)
    ∧ (pad6 f).length = 6
    ∧ digitsVal (pad6 f) = f := by
  have h6 : (natDigits f).length ≤ 6 :=
    natDigits_length_le f 6 (by norm_num; omega) (by norm_num)
  obtain ⟨hval, hform, hne⟩ := natDigits_spec f
  refine ⟨?_, ?_, ?_⟩
  · intro c hc
    unfold pad6 at hc
    rcases List.mem_append.mp hc with hc | hc
    · rw [List.eq_of_mem_replicate hc]
      exact ⟨0, by norm_num, rfl⟩
    · exact hform c hc
  · unfold pad6
    simp only [List.length_append, List.length_replicate]
    omega
  · unfold pad6
    rw [digitsVal_zeros]
    exact hval

theorem fromCharsNum_fixed6 (q : ℚ) (h0 : 0 ≤ q) (h : (q * 1000000).den = 1) :
    fromCharsNum (fixed6 q) = some (.fin q)
    ∧ fromCharsNum ('-' :: fixed6 q) = some (.fin (-q)) := by
  obtain ⟨M, hM, hshape⟩ := fixed6_shape q h0 h
  have hMlt : M % 1000000 < 1000000 := Nat.mod_lt _ (by norm_num)
  obtain ⟨hpform, hplen, hpval⟩ := pad6_facts (M % 1000000) hMlt
  obtain ⟨hdval, hdform, hdne⟩ := natDigits_spec (M / 1000000)
  obtain ⟨hpos, hneg⟩ := fromCharsNum_digits (natDigits (M / 1000000))
    (pad6 (M % 1000000)) hdne hdform hpform
  have hvalue : ((digitsVal (natDigits (M / 1000000) ++ pad6 (M % 1000000)) : ℚ)
      / 10 ^ (pad6 (M % 1000000)).length) = q := by
    rw [digitsVal_append, hpval, hdval, hplen]
    have hsum : (M / 1000000) * 10 ^ 6 + M % 1000000 = M := by
      norm_num
      omega
    rw [hsum, hM]
    norm_num
  constructor
  · rw [hshape, hpos, hvalue]
  · rw [hshape, hneg, hvalue]

theorem parseNumber_roundtrip (q : ℚ) (h : (q * 1000000).den = 1) :
    parseNumber (numChars (.fin q)) = some (.fin q) := by
  by_cases hq : q < 0
  · have h0 : 0 ≤ -q := by linarith
    have h' : (-q * 1000000).den = 1 := by
      have heq : -q * 1000000 = -(q * 1000000) := by ring
      rw [heq, Rat.neg_den]
      exact h
    have hmain := (fromCharsNum_fixed6 (-q) h0 h').2
    simp only [parseNumber, numChars]
    rw [if_pos hq]
    rw [if_neg (by simp)]
    rw [hmain]
    simp
  · push_neg at hq
    have hmain := (fromCharsNum_fixed6 q hq h).1
    obtain ⟨M, -, hshape⟩ := fixed6_shape q hq h
    have hne : fixed6 q ≠ [] := by
      rw [hshape]
      rcases hnd : natDigits (M / 1000000) with _ | ⟨a, b⟩
      · exact absurd hnd (natDigits_spec (M / 1000000)).2.2
      · simp
    simp only [parseNumber, numChars]
    rw [if_neg (not_lt.mpr hq)]
    rw [if_neg hne]
    exact hmain

/-! ### Shape facts about the serialization with the empty indent unit -/

theorem repeatList_nil : ∀ n, repeatList [] n = [] := by
  intro n
  induction n with
  | zero => rfl
  | succ n ih => simp [repeatList, ih]

theorem sizeOf_jv_pos : ∀ v : JsonValue, 0 < sizeOf v := by
  intro v
  cases v <;> simp

/-- With the empty indent unit the nesting level does not influence the
rendering. -/
theorem dump_indent_collapse : ∀ N : Nat,
    (∀ v : JsonValue, sizeOf v ≤ N → ∀ lvl, dumpV [] lvl v = dumpV [] 0 v)
    ∧ (∀ tl : List JsonValue, sizeOf tl ≤ N → ∀ lvl,
        dumpArrElems [] lvl tl = dumpArrElems [] 0 tl)
    ∧ (∀ tl : List (List Char × JsonValue), sizeOf tl ≤ N → ∀ lvl,
        dumpObjElems [] lvl tl = dumpObjElems [] 0 tl) := by
  intro N
  induction N with
  | zero =>
    refine ⟨?_, ?_, ?_⟩
    · intro v hv
      have := sizeOf_jv_pos v
      omega
    · intro tl htl; cases tl <;> simp at htl
    · intro tl htl; cases tl <;> simp at htl
  | succ N ih =>
    obtain ⟨ihV, ihA, ihO⟩ := ih
    refine ⟨?_, ?_, ?_⟩
    · intro v hv lvl
      cases v with
      | invalid => rfl
      | null => rfl
      | bool b => rfl
      | num n => rfl
      | str s => rfl
      | arr es =>
        have hsz : sizeOf es ≤ N := by simp at hv; omega
        simp only [dumpV, repeatList_nil, ihA es hsz lvl]
      | obj ms =>
        have hsz : sizeOf ms ≤ N := by simp at hv; omega
        simp only [dumpV, repeatList_nil, ihO ms hsz lvl]
    · intro tl htl lvl
      match tl with
      | [] => rfl
      | [v] =>
        have hsz : sizeOf v ≤ N := by simp at htl; omega
        simp only [dumpArrElems, repeatList_nil, ihV v hsz (lvl + 1), ihV v hsz 1]
      | v :: w :: rest =>
        have hszv : sizeOf v ≤ N := by simp at htl; omega
        have hszr : sizeOf (w :: rest) ≤ N := by simp at htl ⊢; omega
        simp only [dumpArrElems, repeatList_nil, ihV v hszv (lvl + 1), ihV v hszv 1,
          ihA (w :: rest) hszr lvl]
    · intro tl htl lvl
      match tl with
      | [] => rfl
      | [(k, v)] =>
        have hsz : sizeOf v ≤ N := by simp at htl; omega
        simp only [dumpObjElems, repeatList_nil, ihV v hsz (lvl + 1), ihV v hsz 1]
      | (k, v) :: w :: rest =>
        have hszv : sizeOf v ≤ N := by simp at htl; omega
        have hszr : sizeOf (w :: rest) ≤ N := by simp at htl ⊢; omega
        simp only [dumpObjElems, repeatList_nil, ihV v hszv (lvl + 1), ihV v hszv 1,
          ihO (w :: rest) hszr lvl]

theorem dumpV_collapse (v : JsonValue) (lvl : Nat) :
    dumpV [] lvl v = dumpV [] 0 v :=
  (dump_indent_collapse (sizeOf v)).1 v le_rfl lvl

theorem dumpArrElems_collapse (tl : List JsonValue) (lvl : Nat) :
    dumpArrElems [] lvl tl = dumpArrElems [] 0 tl :=
  (dump_indent_collapse (sizeOf tl)).2.1 tl le_rfl lvl

theorem dumpObjElems_collapse (tl : List (List Char × JsonValue)) (lvl : Nat) :
    dumpObjElems [] lvl tl = dumpObjElems [] 0 tl :=
  (dump_indent_collapse (sizeOf tl)).2.2 tl le_rfl lvl

theorem dumpV_arr_eq (es : List JsonValue) :
    dumpV [] 0 (.arr es) = '[' :: '\n' :: (dumpArrElems [] 0 es ++ [']']) := by
  simp [dumpV, repeatList_nil]

theorem dumpV_obj_eq (ms : List (List Char × JsonValue)) :
    dumpV [] 0 (.obj ms) = '{' :: '\n' :: (dumpObjElems [] 0 ms ++ ['}']) := by
  simp [dumpV, repeatList_nil]

theorem dumpArrElems_single (v : JsonValue) :
    dumpArrElems [] 0 [v] = dumpV [] 0 v ++ ['\n'] := by
  simp [dumpArrElems, repeatList_nil, dumpV_collapse v 1]

theorem dumpArrElems_cons (v w : JsonValue) (rest : List JsonValue) :
    dumpArrElems [] 0 (v :: w :: rest) =
      dumpV [] 0 v ++ ',' :: '\n' :: dumpArrElems [] 0 (w :: rest) := by
  simp [dumpArrElems, repeatList_nil, dumpV_collapse v 1]

theorem dumpObjElems_single (k : List Char) (v : JsonValue) :
    dumpObjElems [] 0 [(k, v)] =
      '"' :: (k ++ ('"' :: ':' :: ' ' :: (dumpV [] 0 v ++ ['\n']))) := by
  simp [dumpObjElems, repeatList_nil, dumpV_collapse v 1]

theorem dumpObjElems_cons (k : List Char) (v : JsonValue)
    (w : List Char × JsonValue) (rest : List (List Char × JsonValue)) :
    dumpObjElems [] 0 ((k, v) :: w :: rest) =
      '"' :: (k ++ ('"' :: ':' :: ' ' :: (dumpV [] 0 v ++
        ',' :: '\n' :: dumpObjElems [] 0 (w :: rest)))) := by
  simp [dumpObjElems, repeatList_nil, dumpV_collapse v 1]

/-- The first character of a rendered `Good` value is never whitespace and
never a closing bracket. -/
theorem dumpV_head (v : JsonValue) (hg : Good v) :
    ∃ c cs, dumpV [] 0 v = c :: cs ∧ isWhitespace c = false
      ∧ c ≠ ']' ∧ c ≠ '}' := by
  cases hg with
  | null => exact ⟨'n', ['u', 'l', 'l'], by simp [dumpV], by decide, by decide, by decide⟩
  | bool b =>
    cases b
    · exact ⟨'f', ['a', 'l', 's', 'e'], by simp [dumpV], by decide, by decide, by decide⟩
    · exact ⟨'t', ['r', 'u', 'e'], by simp [dumpV], by decide, by decide, by decide⟩
  | num q hden =>
    by_cases hq : q < 0
    · refine ⟨'-', fixed6 (-q), ?_, by decide, by decide, by decide⟩
      simp [dumpV, numChars, if_pos hq]
    · push_neg at hq
      obtain ⟨M, -, hshape⟩ := fixed6_shape q hq hden
      obtain ⟨-, hform, hne⟩ := natDigits_spec (M / 1000000)
      rcases hnd : natDigits (M / 1000000) with _ | ⟨a, b⟩
      · exact absurd hnd hne
      · obtain ⟨d, hd, ha⟩ := hform a (by rw [hnd]; simp)
        subst ha
        have hp := digitChar_props d hd
        refine ⟨digitChar d, b ++ '.' :: pad6 (M % 1000000), ?_,
          hp.2.2.2.1, hp.2.2.2.2.2.2.2.2.2.2.1, hp.2.2.2.2.2.2.2.2.2.2.2.1⟩
        simp [dumpV, numChars, if_neg (not_lt.mpr hq), hshape, hnd]
  | str s hs =>
    exact ⟨'"', s ++ ['"'], by simp [dumpV], by decide, by decide, by decide⟩
  | arr es hes =>
    exact ⟨'[', '\n' :: (dumpArrElems [] 0 es ++ [']']),
      by rw [dumpV_arr_eq], by decide, by decide, by decide⟩
  | obj ms h1 h2 h3 =>
    exact ⟨'{', '\n' :: (dumpObjElems [] 0 ms ++ ['}']),
      by rw [dumpV_obj_eq], by decide, by decide, by decide⟩

/-- Every character of a rendered finite number is in the literal/number
scan set, and the token is not one of the literals. -/
theorem numChars_fin_facts (q : ℚ) (hden : (q * 1000000).den = 1) :
    (∀ c ∈ numChars (.fin q), valueChars.contains c = true)
    ∧ numChars (.fin q) ≠ []
    ∧ numChars (.fin q) ≠ "null".toList
    ∧ numChars (.fin q) ≠ "true".toList
    ∧ numChars (.fin q) ≠ "false".toList := by
  have hfix : ∀ r : ℚ, 0 ≤ r → (r * 1000000).den = 1 →
      ∀ c ∈ fixed6 r, valueChars.contains c = true := by
    intro r hr hrden c hc
    obtain ⟨M, -, hshape⟩ := fixed6_shape r hr hrden
    rw [hshape] at hc
    rcases List.mem_append.mp hc with hc | hc
    · obtain ⟨d, hd, rfl⟩ := (natDigits_spec (M / 1000000)).2.1 c hc
      exact (digitChar_props d hd).2.1
    · rcases List.mem_cons.mp hc with rfl | hc
      · decide
      · obtain ⟨d, hd, rfl⟩ := (pad6_facts (M % 1000000)
          (Nat.mod_lt _ (by norm_num))).1 c hc
        exact (digitChar_props d hd).2.1
  have hheadfacts : ∃ c cs, numChars (.fin q) = c :: cs ∧
      (c = '-' ∨ ∃ d, d < 10 ∧ c = digitChar d) := by
    by_cases hq : q < 0
    · exact ⟨'-', fixed6 (-q), by simp [numChars, if_pos hq], Or.inl rfl⟩
    · push_neg at hq
      obtain ⟨M, -, hshape⟩ := fixed6_shape q hq hden
      obtain ⟨-, hform, hne⟩ := natDigits_spec (M / 1000000)
      rcases hnd : natDigits (M / 1000000) with _ | ⟨a, b⟩
      · exact absurd hnd hne
      · obtain ⟨d, hd, ha⟩ := hform a (by rw [hnd]; simp)
        subst ha
        refine ⟨digitChar d, b ++ '.' :: pad6 (M % 1000000), ?_, Or.inr ⟨d, hd, rfl⟩⟩
        simp [numChars, if_neg (not_lt.mpr hq), hshape, hnd]
  obtain ⟨c, cs, hcons, hcase⟩ := hheadfacts
  have hcharne : c ≠ 'n' ∧ c ≠ 't' ∧ c ≠ 'f' := by
    rcases hcase with rfl | ⟨d, hd, rfl⟩
    · exact ⟨by decide, by decide, by decide⟩
    · have hp := digitChar_props d hd
      exact ⟨hp.2.2.2.2.2.2.2.2.2.2.2.2.1, hp.2.2.2.2.2.2.2.2.2.2.2.2.2.1,
        hp.2.2.2.2.2.2.2.2.2.2.2.2.2.2.1⟩
  refine ⟨?_, by simp [hcons], ?_, ?_, ?_⟩
  · intro ch hch
    by_cases hq : q < 0
    · simp only [numChars, if_pos hq] at hch
      rcases List.mem_cons.mp hch with rfl | hch
      · decide
      · have h0 : (0 : ℚ) ≤ -q := by linarith
        have h' : (-q * 1000000).den = 1 := by
          have heq : -q * 1000000 = -(q * 1000000) := by ring
          rw [heq, Rat.neg_den]; exact hden
        exact hfix (-q) h0 h' ch hch
    · push_neg at hq
      simp only [numChars, if_neg (not_lt.mpr hq)] at hch
      exact hfix q hq hden ch hch
  · rw [hcons]; intro hcon
    exact absurd (List.head_eq_of_cons_eq hcon) hcharne.1
  · rw [hcons]; intro hcon
    exact absurd (List.head_eq_of_cons_eq hcon) hcharne.2.1
  · rw [hcons]; intro hcon
    exact absurd (List.head_eq_of_cons_eq hcon) hcharne.2.2

/-! ### The string rule recovers a clean string verbatim -/

theorem parseStringLoop_clean (oob : Nat → Char) (s : List Char)
    (hs : cleanString s) : ∀ acc rest pos,
    parseStringLoop oob (s ++ '"' :: rest) pos acc =
      .ok (acc ++ s, rest, pos + s.length + 1) := by
  induction s with
  | nil =>
    intro acc rest pos
    rw [parseStringLoop.eq_def]
    simp
  | cons c cs ih =>
    intro acc rest pos
    obtain ⟨hq, hb, hctl⟩ := hs c (by simp)
    rw [parseStringLoop.eq_def]
    simp only [List.cons_append]
    rw [if_neg hb, if_neg hq]
    rw [ih (fun x hx => hs x (by simp [hx])) (acc ++ [c]) rest (pos + 1)]
    simp only [List.append_assoc, List.singleton_append, List.length_cons,
      Except.ok.injEq, Prod.mk.injEq]
    refine ⟨by simp, by simp, by omega⟩

theorem parseString_clean (oob : Nat → Char) (s rest : List Char) (pos : Nat)
    (hs : cleanString s) :
    parseString oob ('"' :: (s ++ '"' :: rest)) pos =
      .ok (s, rest, pos + s.length + 2) := by
  unfold parseString
  simp only [List.tail_cons]
  rw [parseStringLoop_clean oob s hs [] rest (pos + 1)]
  simp
  omega

/-! ### Loop entry through the newline emitted after an opening bracket -/

theorem arrayLoop_newline (oob : Nat → Char) (f : Nat)
    (values : List JsonValue) (X : List Char) (pos : Nat) (hX : X ≠ []) :
    parseArrayLoopF oob f values ('\n' :: X) pos =
      parseArrayLoopF oob f values X (pos + 1) := by
  cases f with
  | zero => rfl
  | succ f =>
    rw [parseArrayLoopF.eq_def, parseArrayLoopF.eq_def]
    rcases X with _ | ⟨c, cs⟩
    · exact absurd rfl hX
    · simp only []
      rw [skipWhitespace_ws '\n' (c :: cs) pos (by decide)]

theorem objectLoop_newline (oob : Nat → Char) (f : Nat)
    (ob : List (List Char × JsonValue)) (X : List Char) (pos : Nat)
    (hX : X ≠ []) :
    parseObjectLoopF oob f ob ('\n' :: X) pos =
      parseObjectLoopF oob f ob X (pos + 1) := by
  cases f with
  | zero => rfl
  | succ f =>
    rw [parseObjectLoopF.eq_def, parseObjectLoopF.eq_def]
    rcases X with _ | ⟨c, cs⟩
    · exact absurd rfl hX
    · simp only []
      rw [skipWhitespace_ws '\n' (c :: cs) pos (by decide)]

/-- Evaluation of the literal/number branch of `parseValue` on a token
followed by a non-token character. -/
theorem parseValueF_token (oob : Nat → Char) (tok rest : List Char) (pos : Nat)
    (hmem : ∀ c ∈ tok, valueChars.contains c = true)
    (hhead : ∃ c cs, tok = c :: cs ∧ isWhitespace c = false
      ∧ c ≠ '{' ∧ c ≠ '[' ∧ c ≠ '"')
    (hrest : rest = [] ∨ ∃ c cs, rest = c :: cs ∧ valueChars.contains c = false) :
    parseValueF oob 1 (tok ++ rest) pos =
      (if tok = "null".toList then some (.ok (.null, rest, pos + tok.length))
       else if tok = "true".toList then
         some (.ok (.bool true, rest, pos + tok.length))
       else if tok = "false".toList then
         some (.ok (.bool false, rest, pos + tok.length))
       else match parseNumber tok with
         | none => some (.error ⟨pos, "Invalid number"⟩)
         | some n => some (.ok (.num n, rest, pos + tok.length))) := by
  obtain ⟨c, cs, rfl, hws, hc1, hc2, hc3⟩ := hhead
  rw [parseValueF.eq_def]
  simp only [List.cons_append]
  rw [skipWhitespace_not_ws c (cs ++ rest) pos hws]
  simp only []
  rw [if_neg hc1, if_neg hc2, if_neg hc3]
  have htw : ((c :: cs) ++ rest).takeWhile (fun ch => valueChars.contains ch) =
      c :: cs := takeWhile_append_stop _ _ hmem hrest
  simp only [List.cons_append] at htw
  rw [htw]
  have hdrop : (c :: (cs ++ rest)).drop (c :: cs).length = rest := by
    have h : c :: (cs ++ rest) = (c :: cs) ++ rest := by simp
    rw [h, List.drop_left]
  rw [if_neg (by simp)]
  rw [hdrop]

/-- `skipSeparator` on the newline emitted before a closing bracket: no
comma found. -/
theorem skipSeparator_nl (X : List Char) (p : Nat) (c : Char)
    (hc : isWhitespace c = false) (hnc : c ≠ ',') :
    skipSeparator ('\n' :: c :: X) p = (false, c :: X, p + 1) := by
  unfold skipSeparator
  rw [skipWhitespace_ws '\n' (c :: X) p (by decide),
    skipWhitespace_not_ws c X (p + 1) hc]
  simp only []
  split
  · next rest heq =>
    exact absurd (List.head_eq_of_cons_eq heq) hnc
  · rfl

/-- `skipSeparator` on the comma-newline emitted between two elements. -/
theorem skipSeparator_comma_nl (X : List Char) (p : Nat) (c : Char)
    (hc : isWhitespace c = false) :
    skipSeparator (',' :: '\n' :: c :: X) p = (true, c :: X, p + 2) := by
  unfold skipSeparator
  rw [skipWhitespace_not_ws ',' ('\n' :: c :: X) p (by decide)]
  simp only []
  rw [skipWhitespace_ws '\n' (c :: X) (p + 1) (by decide),
    skipWhitespace_not_ws c X (p + 1 + 1) hc]

/-- The array loop parses back a rendered element sequence, appending the
elements to the accumulator, given that each element's rendering parses
back to the element. -/
theorem arrayLoop_rt (oob : Nat → Char) : ∀ tl : List JsonValue,
    (∀ w ∈ tl, ∀ (rest : List Char) (pos : Nat),
      (rest = [] ∨ ∃ c cs, rest = c :: cs ∧ valueChars.contains c = false) →
      ∃ f p', parseValueF oob f (dumpV [] 0 w ++ rest) pos =
        some (.ok (w, rest, p'))) →
    (∀ w ∈ tl, ∃ c cs, dumpV [] 0 w = c :: cs ∧ isWhitespace c = false
      ∧ c ≠ ']' ∧ c ≠ '}') →
    ∀ (values : List JsonValue) (rest : List Char) (pos : Nat),
      ∃ f p', parseArrayLoopF oob f values
          (dumpArrElems [] 0 tl ++ ']' :: rest) pos =
        some (.ok (.arr (values ++ tl), rest, p')) := by
  intro tl
  induction tl with
  | nil =>
    intro _ _ values rest pos
    refine ⟨1, pos + 1, ?_⟩
    rw [parseArrayLoopF.eq_def]
    simp only [dumpArrElems, List.nil_append]
    rw [skipWhitespace_not_ws ']' rest pos (by decide)]
    simp
  | cons v vs ih =>
    intro hEv hHead values rest pos
    obtain ⟨c, cs, hcons, hws, hne1, hne2⟩ := hHead v (by simp)
    cases vs with
    | nil =>
      obtain ⟨f1, p1, hval⟩ := hEv v (by simp) ('\n' :: ']' :: rest) pos
        (Or.inr ⟨'\n', ']' :: rest, rfl, by decide⟩)
      refine ⟨f1 + 1, p1 + 1 + 1, ?_⟩
      rw [parseArrayLoopF.eq_def]
      have hshape : dumpArrElems [] 0 [v] ++ ']' :: rest =
          c :: (cs ++ '\n' :: ']' :: rest) := by
        rw [dumpArrElems_single, hcons]
        simp
      rw [hshape]
      simp only []
      rw [skipWhitespace_not_ws c (cs ++ '\n' :: ']' :: rest) pos hws]
      simp only []
      rw [if_neg hne1]
      have hval' : parseValueF oob f1 (c :: (cs ++ '\n' :: ']' :: rest)) pos =
          some (.ok (v, '\n' :: ']' :: rest, p1)) := by
        rw [← hval, hcons]
        simp
      rw [hval']
      simp only []
      rw [skipSeparator_nl rest p1 ']' (by decide) (by decide)]
      simp
    | cons w ws =>
      obtain ⟨cw, csw, hconsw, hwsw, hne1w, hne2w⟩ := hHead w (by simp)
      obtain ⟨f1, p1, hval⟩ := hEv v (by simp)
        (',' :: '\n' :: (dumpArrElems [] 0 (w :: ws) ++ ']' :: rest)) pos
        (Or.inr ⟨',', _, rfl, by decide⟩)
      obtain ⟨f2, p2, hloop⟩ := ih
        (fun u hu => hEv u (by simp [hu]))
        (fun u hu => hHead u (by simp [hu]))
        (values ++ [v]) rest (p1 + 2)
      refine ⟨max f1 f2 + 1, p2, ?_⟩
      rw [parseArrayLoopF.eq_def]
      have hshape : dumpArrElems [] 0 (v :: w :: ws) ++ ']' :: rest =
          c :: (cs ++ ',' :: '\n' :: (dumpArrElems [] 0 (w :: ws) ++ ']' :: rest)) := by
        rw [dumpArrElems_cons, hcons]
        simp
      rw [hshape]
      simp only []
      rw [skipWhitespace_not_ws c _ pos hws]
      simp only []
      rw [if_neg hne1]
      have hval' : parseValueF oob (max f1 f2)
          (c :: (cs ++ ',' :: '\n' :: (dumpArrElems [] 0 (w :: ws) ++ ']' :: rest))) pos =
          some (.ok (v, ',' :: '\n' :: (dumpArrElems [] 0 (w :: ws) ++ ']' :: rest), p1)) := by
        refine (parseF_mono f1 oob).1 (max f1 f2) _ pos _ (le_max_left _ _) ?_
        rw [← hval, hcons]
        simp
      rw [hval']
      simp only []
      have hsplit : ∃ S, dumpArrElems [] 0 (w :: ws) = dumpV [] 0 w ++ S := by
        cases ws with
        | nil => exact ⟨['\n'], dumpArrElems_single w⟩
        | cons x xs => exact ⟨',' :: '\n' :: dumpArrElems [] 0 (x :: xs),
            dumpArrElems_cons w x xs⟩
      obtain ⟨S, hS⟩ := hsplit
      have hY : dumpArrElems [] 0 (w :: ws) ++ ']' :: rest =
          cw :: (csw ++ (S ++ ']' :: rest)) := by
        rw [hS, hconsw]
        simp
      rw [hY]
      rw [skipSeparator_comma_nl (csw ++ (S ++ ']' :: rest)) p1 cw hwsw]
      simp only []
      split
      · next rest3 heq =>
        exact absurd (List.head_eq_of_cons_eq heq) hne1w
      · rw [if_pos trivial]
        have hloop' := (parseF_mono f2 oob).2.1 (max f1 f2) (values ++ [v])
          (dumpArrElems [] 0 (w :: ws) ++ ']' :: rest) (p1 + 2) _
          (le_max_right _ _) hloop
        rw [hY] at hloop'
        rw [hloop']
        simp

/-- The object loop parses back a rendered member sequence, appending the
members to the accumulator, given that each member value's rendering parses
back to the value, keys are clean, the tail is sorted, and every
accumulator key precedes every tail key. -/
theorem objectLoop_rt (oob : Nat → Char) : ∀ tl : List (List Char × JsonValue),
    (∀ p ∈ tl, ∀ (rest : List Char) (pos : Nat),
      (rest = [] ∨ ∃ c cs, rest = c :: cs ∧ valueChars.contains c = false) →
      ∃ f p', parseValueF oob f (dumpV [] 0 p.2 ++ rest) pos =
        some (.ok (p.2, rest, p'))) →
    (∀ p ∈ tl, ∃ c cs, dumpV [] 0 p.2 = c :: cs ∧ isWhitespace c = false
      ∧ c ≠ ']' ∧ c ≠ '}') →
    (∀ p ∈ tl, cleanString p.1) →
    tl.Pairwise (fun a b => strLt a.1 b.1 = true) →
    ∀ (ob : List (List Char × JsonValue)) (rest : List Char) (pos : Nat),
      (∀ q ∈ ob, ∀ p ∈ tl, strLt q.1 p.1 = true) →
      ∃ f p', parseObjectLoopF oob f ob
          (dumpObjElems [] 0 tl ++ '}' :: rest) pos =
        some (.ok (.obj (ob ++ tl), rest, p')) := by
  intro tl
  induction tl with
  | nil =>
    intro _ _ _ _ ob rest pos _
    refine ⟨1, pos + 1, ?_⟩
    rw [parseObjectLoopF.eq_def]
    simp only [dumpObjElems, List.nil_append]
    rw [skipWhitespace_not_ws '}' rest pos (by decide)]
    simp
  | cons m tl' ih =>
    obtain ⟨k, v⟩ := m
    intro hEv hHead hClean hPair ob rest pos hcross
    obtain ⟨c, cs, hcons, hws, hne1, hne2⟩ := hHead (k, v) (by simp)
    have hk : cleanString k := hClean (k, v) (by simp)
    have hlt : ∀ p ∈ ob, strLt p.1 k = true :=
      fun q hq => hcross q hq (k, v) (by simp)
    obtain ⟨hPairHead, hPair'⟩ := List.pairwise_cons.mp hPair
    cases tl' with
    | nil =>
      obtain ⟨f1, p1, hval⟩ := hEv (k, v) (by simp) ('\n' :: '}' :: rest)
        (pos + k.length + 2 + 1 + 1)
        (Or.inr ⟨'\n', '}' :: rest, rfl, by decide⟩)
      refine ⟨f1 + 1, p1 + 1 + 1, ?_⟩
      rw [parseObjectLoopF.eq_def]
      have hshape : dumpObjElems [] 0 [(k, v)] ++ '}' :: rest =
          '"' :: (k ++ '"' :: ':' :: ' ' ::
            (dumpV [] 0 v ++ '\n' :: '}' :: rest)) := by
        rw [dumpObjElems_single]
        simp
      rw [hshape]
      simp only []
      rw [skipWhitespace_not_ws '"' _ pos (by decide)]
      simp only []
      rw [if_neg (by decide), if_neg (not_not_intro rfl)]
      rw [parseString_clean oob k (':' :: ' ' ::
        (dumpV [] 0 v ++ '\n' :: '}' :: rest)) pos hk]
      simp only []
      rw [skipWhitespace_not_ws ':' _ (pos + k.length + 2) (by decide)]
      simp only []
      rw [skipWhitespace_ws ' ' (dumpV [] 0 v ++ '\n' :: '}' :: rest)
        (pos + k.length + 2 + 1) (by decide)]
      have hvshape : dumpV [] 0 v ++ '\n' :: '}' :: rest =
          c :: (cs ++ '\n' :: '}' :: rest) := by
        rw [hcons]; simp
      rw [hvshape]
      rw [skipWhitespace_not_ws c (cs ++ '\n' :: '}' :: rest)
        (pos + k.length + 2 + 1 + 1) hws]
      simp only []
      have hval' : parseValueF oob f1 (c :: (cs ++ '\n' :: '}' :: rest))
          (pos + k.length + 2 + 1 + 1) =
          some (.ok (v, '\n' :: '}' :: rest, p1)) := by
        rw [← hval, hcons]
        simp
      rw [hval']
      simp only []
      rw [skipSeparator_nl rest p1 '}' (by decide) (by decide)]
      simp only []
      rw [objEmplace_append ob k v hlt]
    | cons m2 tl'' =>
      obtain ⟨k2, v2⟩ := m2
      have hTailHead : ∃ Q, dumpObjElems [] 0 ((k2, v2) :: tl'') = '"' :: Q := by
        cases tl'' with
        | nil => exact ⟨_, dumpObjElems_single k2 v2⟩
        | cons x xs => exact ⟨_, dumpObjElems_cons k2 v2 x xs⟩
      obtain ⟨Q, hQ⟩ := hTailHead
      obtain ⟨f1, p1, hval⟩ := hEv (k, v) (by simp)
        (',' :: '\n' :: (dumpObjElems [] 0 ((k2, v2) :: tl'') ++ '}' :: rest))
        (pos + k.length + 2 + 1 + 1)
        (Or.inr ⟨',', _, rfl, by decide⟩)
      obtain ⟨f2, p2, hloop⟩ := ih
        (fun u hu => hEv u (by simp [hu]))
        (fun u hu => hHead u (by simp [hu]))
        (fun u hu => hClean u (by simp [hu]))
        hPair'
        (ob ++ [(k, v)]) rest (p1 + 2)
        (by
          intro q hq p hp
          rcases List.mem_append.mp hq with hq1 | hq2
          · exact hcross q hq1 p (by simp [hp])
          · have : q = (k, v) := by simpa using hq2
            subst this
            exact hPairHead p hp)
      refine ⟨max f1 f2 + 1, p2, ?_⟩
      rw [parseObjectLoopF.eq_def]
      have hshape : dumpObjElems [] 0 ((k, v) :: (k2, v2) :: tl'') ++ '}' :: rest =
          '"' :: (k ++ '"' :: ':' :: ' ' :: (dumpV [] 0 v ++
            ',' :: '\n' :: (dumpObjElems [] 0 ((k2, v2) :: tl'') ++ '}' :: rest))) := by
        rw [dumpObjElems_cons]
        simp
      rw [hshape]
      simp only []
      rw [skipWhitespace_not_ws '"' _ pos (by decide)]
      simp only []
      rw [if_neg (by decide), if_neg (not_not_intro rfl)]
      rw [parseString_clean oob k (':' :: ' ' :: (dumpV [] 0 v ++
        ',' :: '\n' :: (dumpObjElems [] 0 ((k2, v2) :: tl'') ++ '}' :: rest)))
        pos hk]
      simp only []
      rw [skipWhitespace_not_ws ':' _ (pos + k.length + 2) (by decide)]
      simp only []
      rw [skipWhitespace_ws ' ' _ (pos + k.length + 2 + 1) (by decide)]
      have hvshape : dumpV [] 0 v ++
          ',' :: '\n' :: (dumpObjElems [] 0 ((k2, v2) :: tl'') ++ '}' :: rest) =
          c :: (cs ++
            ',' :: '\n' :: (dumpObjElems [] 0 ((k2, v2) :: tl'') ++ '}' :: rest)) := by
        rw [hcons]; simp
      rw [hvshape]
      rw [skipWhitespace_not_ws c _ (pos + k.length + 2 + 1 + 1) hws]
      simp only []
      have hval' : parseValueF oob (max f1 f2) (c :: (cs ++
          ',' :: '\n' :: (dumpObjElems [] 0 ((k2, v2) :: tl'') ++ '}' :: rest)))
          (pos + k.length + 2 + 1 + 1) =
          some (.ok (v,
            ',' :: '\n' :: (dumpObjElems [] 0 ((k2, v2) :: tl'') ++ '}' :: rest),
            p1)) := by
        refine (parseF_mono f1 oob).1 (max f1 f2) _ _ _ (le_max_left _ _) ?_
        rw [← hval, hcons]
        simp
      rw [hval']
      simp only []
      have hY : dumpObjElems [] 0 ((k2, v2) :: tl'') ++ '}' :: rest =
          '"' :: (Q ++ '}' :: rest) := by
        rw [hQ]; simp
      rw [hY]
      rw [skipSeparator_comma_nl (Q ++ '}' :: rest) p1 '"' (by decide)]
      simp only []
      split
      · next rest3 heq =>
        exact absurd (List.head_eq_of_cons_eq heq) (by decide)
      · rw [if_pos trivial]
        rw [objEmplace_append ob k v hlt]
        have hloop' := (parseF_mono f2 oob).2.2 (max f1 f2) (ob ++ [(k, v)])
          (dumpObjElems [] 0 ((k2, v2) :: tl'') ++ '}' :: rest) (p1 + 2) _
          (le_max_right _ _) hloop
        rw [hY] at hloop'
        rw [hloop']
        simp

/-- A character of the literal/number scan set is not whitespace and not an
opening brace, opening bracket or quote. -/
theorem valueChars_mem_facts (c : Char) (h : c ∈ valueChars) :
    isWhitespace c = false ∧ c ≠ '{' ∧ c ≠ '[' ∧ c ≠ '"' := by
  revert h
  revert c
  decide

/-- Serialization round-trip for `Good` trees, by strong induction on the
tree size: rendering a `Good` value and running the value rule on the
rendering (followed by an arbitrary continuation that cannot extend the
final token) recovers the value exactly. -/
theorem dumpV_rt (oob : Nat → Char) : ∀ N : Nat, ∀ v : JsonValue,
    sizeOf v ≤ N → Good v → ∀ (rest : List Char) (pos : Nat),
    (rest = [] ∨ ∃ c cs, rest = c :: cs ∧ valueChars.contains c = false) →
    ∃ f p', parseValueF oob f (dumpV [] 0 v ++ rest) pos =
      some (.ok (v, rest, p')) := by
  intro N
  induction N with
  | zero =>
    intro v hv
    have := sizeOf_jv_pos v
    omega
  | succ N ih =>
    intro v hv hg rest pos hrest
    cases hg with
    | null =>
      refine ⟨1, pos + ("null".toList).length, ?_⟩
      have h := parseValueF_token oob "null".toList rest pos (by decide)
        ⟨'n', ['u', 'l', 'l'], by decide, by decide, by decide, by decide,
          by decide⟩ hrest
      have hd : dumpV [] 0 .null = "null".toList := rfl
      rw [hd, h, if_pos rfl]
    | bool b =>
      cases b with
      | false =>
        refine ⟨1, pos + ("false".toList).length, ?_⟩
        have h := parseValueF_token oob "false".toList rest pos (by decide)
          ⟨'f', ['a', 'l', 's', 'e'], by decide, by decide, by decide,
            by decide, by decide⟩ hrest
        have hd : dumpV [] 0 (.bool false) = "false".toList := rfl
        rw [hd, h, if_neg (by decide), if_neg (by decide), if_pos rfl]
      | true =>
        refine ⟨1, pos + ("true".toList).length, ?_⟩
        have h := parseValueF_token oob "true".toList rest pos (by decide)
          ⟨'t', ['r', 'u', 'e'], by decide, by decide, by decide, by decide,
            by decide⟩ hrest
        have hd : dumpV [] 0 (.bool true) = "true".toList := rfl
        rw [hd, h, if_neg (by decide), if_pos rfl]
    | num q hden =>
      obtain ⟨hmem, hne, hnnull, hntrue, hnfalse⟩ := numChars_fin_facts q hden
      rcases htok : numChars (.fin q) with _ | ⟨c, cs⟩
      · exact absurd htok hne
      · have hcmem : valueChars.contains c = true := hmem c (by rw [htok]; simp)
        have hcfacts := valueChars_mem_facts c (by simpa using hcmem)
        refine ⟨1, pos + (numChars (.fin q)).length, ?_⟩
        have h := parseValueF_token oob (numChars (.fin q)) rest pos hmem
          ⟨c, cs, htok, hcfacts.1, hcfacts.2.1, hcfacts.2.2.1,
            hcfacts.2.2.2⟩ hrest
        have hd : dumpV [] 0 (.num (.fin q)) = numChars (.fin q) := rfl
        rw [hd, h, if_neg hnnull, if_neg hntrue, if_neg hnfalse,
          parseNumber_roundtrip q hden]
    | str s hclean =>
      refine ⟨1, pos + s.length + 2, ?_⟩
      rw [parseValueF.eq_def]
      have hshape : dumpV [] 0 (.str s) ++ rest = '"' :: (s ++ '"' :: rest) := by
        simp [dumpV]
      rw [hshape]
      simp only []
      rw [skipWhitespace_not_ws '"' _ pos (by decide)]
      simp only []
      rw [if_neg (by decide), if_neg (by decide), if_pos trivial]
      rw [parseString_clean oob s rest pos hclean]
    | arr es hes =>
      have hEv : ∀ w ∈ es, ∀ (r : List Char) (p : Nat),
          (r = [] ∨ ∃ c cs, r = c :: cs ∧ valueChars.contains c = false) →
          ∃ f p', parseValueF oob f (dumpV [] 0 w ++ r) p =
            some (.ok (w, r, p')) := by
        intro w hw
        have hszw : sizeOf w ≤ N := by
          have h1 := List.sizeOf_lt_of_mem hw
          simp at hv
          omega
        exact ih w hszw (hes w hw)
      have hHead : ∀ w ∈ es, ∃ c cs, dumpV [] 0 w = c :: cs
          ∧ isWhitespace c = false ∧ c ≠ ']' ∧ c ≠ '}' :=
        fun w hw => dumpV_head w (hes w hw)
      obtain ⟨f, p', hloop⟩ := arrayLoop_rt oob es hEv hHead [] rest
        (pos + 1 + 1)
      rw [List.nil_append] at hloop
      refine ⟨f + 1, p', ?_⟩
      rw [parseValueF.eq_def]
      have hshape : dumpV [] 0 (.arr es) ++ rest =
          '[' :: ('\n' :: (dumpArrElems [] 0 es ++ ']' :: rest)) := by
        rw [dumpV_arr_eq]
        simp
      rw [hshape]
      simp only []
      rw [skipWhitespace_not_ws '[' _ pos (by decide)]
      simp only []
      rw [if_neg (by decide), if_pos trivial]
      rw [arrayLoop_newline oob f [] (dumpArrElems [] 0 es ++ ']' :: rest)
        (pos + 1) (by simp)]
      exact hloop
    | obj ms hpair hkeys hvals =>
      have hEv : ∀ p ∈ ms, ∀ (r : List Char) (p2 : Nat),
          (r = [] ∨ ∃ c cs, r = c :: cs ∧ valueChars.contains c = false) →
          ∃ f p', parseValueF oob f (dumpV [] 0 p.2 ++ r) p2 =
            some (.ok (p.2, r, p')) := by
        intro p hp
        obtain ⟨k, w⟩ := p
        have hszw : sizeOf w ≤ N := by
          have h1 := List.sizeOf_lt_of_mem hp
          simp at hv h1
          omega
        exact ih w hszw (hvals (k, w) hp)
      have hHead : ∀ p ∈ ms, ∃ c cs, dumpV [] 0 p.2 = c :: cs
          ∧ isWhitespace c = false ∧ c ≠ ']' ∧ c ≠ '}' :=
        fun p hp => dumpV_head p.2 (hvals p hp)
      obtain ⟨f, p', hloop⟩ := objectLoop_rt oob ms hEv hHead hkeys hpair
        [] rest (pos + 1 + 1) (fun q hq => absurd hq (List.not_mem_nil q))
      rw [List.nil_append] at hloop
      refine ⟨f + 1, p', ?_⟩
      rw [parseValueF.eq_def]
      have hshape : dumpV [] 0 (.obj ms) ++ rest =
          '{' :: ('\n' :: (dumpObjElems [] 0 ms ++ '}' :: rest)) := by
        rw [dumpV_obj_eq]
        simp
      rw [hshape]
      simp only []
      rw [skipWhitespace_not_ws '{' _ pos (by decide)]
      simp only []
      rw [if_pos trivial]
      rw [objectLoop_newline oob f [] (dumpObjElems [] 0 ms ++ '}' :: rest)
        (pos + 1) (by simp)]
      exact hloop

/-- C4 (amended): for every tree built purely from `Null`, `Bool`, `Array`,
`Object`, strings free of quote/backslash/control characters, and `Number`s
exactly representable with six decimal fraction digits (`q * 10^6` an
integer), `parse(tree.dump())` succeeds and yields a tree structurally
equal to the original; object members are keyed by the sorted map order.
The original claim, over arbitrary `Number`s, is false: `dump` renders a
double with six fixed decimal places (`std::to_string`), so any value with
a finer fraction — e.g. `10^(-7)`, see the counterexample — comes back as
a different number. -/
theorem dump_parse_roundtrip (oob : Nat → Char) (v : JsonValue)
    (hg : Good v) : parse oob (dumpV [] 0 v) = .ok v := by
  obtain ⟨f, p', h⟩ := dumpV_rt oob (sizeOf v) v le_rfl hg [] 0 (Or.inl rfl)
  rw [List.append_nil] at h
  exact parse_of_parseValueF oob _ f v [] p' h

/-- The round-trip at a concrete tree exercising every `Good` constructor:
an object with a number member and an array member holding `null`, a bool
and a string. -/
theorem dump_parse_roundtrip_witness :
    parse zeroOob (dumpV [] 0 (.obj [(['a'], .num (.fin 12)),
      (['b'], .arr [.null, .bool true, .str ['h', 'i']])])) =
    .ok (.obj [(['a'], .num (.fin 12)),
      (['b'], .arr [.null, .bool true, .str ['h', 'i']])]) :=
  dump_parse_roundtrip zeroOob _
    (Good.obj _ (by decide)
      (by
        intro p hp c hc
        fin_cases hp <;> fin_cases hc <;>
          exact ⟨by decide, by decide, by decide⟩)
      (by
        intro p hp
        rcases List.mem_cons.mp hp with rfl | hp
        · exact Good.num 12 (by norm_num)
        · rcases List.mem_cons.mp hp with rfl | hp
          · refine Good.arr _ ?_
            intro w hw
            rcases List.mem_cons.mp hw with rfl | hw
            · exact Good.null
            · rcases List.mem_cons.mp hw with rfl | hw
              · exact Good.bool true
              · rcases List.mem_cons.mp hw with rfl | hw
                · refine Good.str _ ?_
                  intro c hc
                  fin_cases hc <;> exact ⟨by decide, by decide, by decide⟩
                · exact absurd hw (List.not_mem_nil w)
          · exact absurd hp (List.not_mem_nil p)))

/-- The round-trip of the claim fails on the plain `Number` tree `10^(-7)`:
`dump` renders it as `0.000000` (six fixed decimal places), which parses
back to the number `0`, not to the original value. -/
theorem dump_parse_roundtrip_cex :
    ¬ (parse zeroOob (dumpV [] 0 (.num (.fin (1 / 10000000)))) =
      .ok (.num (.fin (1 / 10000000)))) := by
  have h1 : dumpV [] 0 (.num (.fin (1 / 10000000))) =
      ['0', '.', '0', '0', '0', '0', '0', '0'] := by
    with_unfolding_all rfl
  have h2 : parse zeroOob ['0', '.', '0', '0', '0', '0', '0', '0'] =
      .ok (.num (.fin 0)) := by
    with_unfolding_all rfl
  rw [h1, h2]
  intro hcon
  simp only [Except.ok.injEq, JsonValue.num.injEq, JNum.fin.injEq] at hcon
  norm_num at hcon

end Minijson
